import Mathlib

/-!
Verification development for the ai-kb file-selection and normalization tool
(`src/index.js`).  The source tree contains three near-duplicate variants of
the CLI entry file; the first two variants share one implementation of the
selection resolver (`getMatchingFiles`, with `+`-stripping, a glob `ignore`
option and `nodir: true`), while the third variant implements it differently
(substring-based explicit-include detection, no `+`-stripping, no `nodir`
option).  Both resolver variants are embedded below (`getMatchingFiles` and
`getMatchingFilesV3`).

JavaScript strings (pattern lines, paths, file contents) are modelled as
`List Char`.  The external `glob` library is abstracted by a matcher
`m : List Char → List Char → Bool` (`m pattern path` decides whether the
glob `pattern` matches `path`); its documented options are modelled
explicitly: `ignore` as a negative-match subtraction and `nodir : true` as
restriction to non-directory entries.
-/

/-- JavaScript whitespace class `\s` (as used by `trim`, `trimEnd` and the
whitespace regexes in `removeWhitespace`). -/
def isWSChar (c : Char) : Bool :=
  match c with
  | ' ' | '\t' | '\n' | '\r' | '\x0b' | '\x0c' => true
  | _ =>
    c.val == 0xa0 || c.val == 0x1680 || (0x2000 ≤ c.val && c.val ≤ 0x200a) ||
    c.val == 0x2028 || c.val == 0x2029 || c.val == 0x202f || c.val == 0x205f ||
    c.val == 0x3000 || c.val == 0xfeff

/-- The bracket characters of the regex `[(){}\[\]]` in `removeWhitespace`. -/
def isBracketChar (c : Char) : Bool :=
  c == '(' || c == ')' || c == '\x7b' || c == '\x7d' || c == '[' || c == ']'

/-- JavaScript `content.split('\n')`. -/
def splitNlL : List Char → List (List Char)
  | [] => [[]]
  | c :: rest =>
    if c == '\n' then [] :: splitNlL rest
    else
      match splitNlL rest with
      | [] => [[c]]
      | h :: t => (c :: h) :: t

/-- JavaScript `Array.prototype.join(sep)` for a one-character separator. -/
def joinSep (sep : Char) : List (List Char) → List Char
  | [] => []
  | [x] => x
  | x :: y :: t => x ++ sep :: joinSep sep (y :: t)

/-- JavaScript `String.prototype.trimStart`. -/
def trimStartL (l : List Char) : List Char := l.dropWhile isWSChar

/-- JavaScript `String.prototype.trimEnd`. -/
def trimEndL (l : List Char) : List Char := (l.reverse.dropWhile isWSChar).reverse

/-- JavaScript `String.prototype.trim`. -/
def trimL (l : List Char) : List Char := trimStartL (trimEndL l)

/-- `leadEq needle hay`: `hay` begins with `needle`
(JavaScript `String.prototype.startsWith`). -/
def leadEq : List Char → List Char → Bool
  | [], _ => true
  | _ :: _, [] => false
  | n :: ns, h :: hs => n == h && leadEq ns hs

/-- JavaScript `String.prototype.includes` (substring containment). -/
def isSubstrL (needle : List Char) : List Char → Bool
  | [] => needle.isEmpty
  | c :: rest => leadEq needle (c :: rest) || isSubstrL needle rest

/-- JavaScript `String.prototype.replace(needle, repl)` with a string
`needle`: replaces the first occurrence only. -/
def replaceFirstL (needle repl : List Char) : List Char → List Char
  | [] => if needle.isEmpty then repl else []
  | c :: rest =>
    if leadEq needle (c :: rest) then repl ++ (c :: rest).drop needle.length
    else c :: replaceFirstL needle repl rest

/-- The regex replacement `.replace(/\s+/g, ' ')`: each maximal whitespace
run becomes a single space.  The flag records whether the previous character
was part of a whitespace run already rewritten to `' '`. -/
def collapseGo : Bool → List Char → List Char
  | _, [] => []
  | prev, c :: rest =>
    if isWSChar c then
      if prev then collapseGo true rest else ' ' :: collapseGo true rest
    else c :: collapseGo false rest

/-- The regex replacement `.replace(/\s*([(){}\[\]])\s*/g, '$1')`: every
whitespace run immediately adjacent to a bracket character is removed.  The
scan keeps the pending whitespace run that has not yet been resolved
(`pending`) and whether the previous emitted character was a bracket whose
trailing `\s*` is still being consumed (`afterBr`). -/
def brGo : Bool → List Char → List Char → List Char
  | _, pending, [] => pending
  | afterBr, pending, c :: rest =>
    if isWSChar c then
      if afterBr then brGo true pending rest
      else brGo false (pending ++ [c]) rest
    else if isBracketChar c then c :: brGo true [] rest
    else pending ++ c :: brGo false [] rest

/-- The regex replacements `.replace(/;\s+/g, ';')` and `.replace(/,\s+/g, ',')`
(for `t = ';'` and `t = ','`): the whitespace run immediately following the
trigger character is removed. -/
def dropAfterGo : Char → Bool → List Char → List Char
  | _, _, [] => []
  | t, after, c :: rest =>
    if after && isWSChar c then dropAfterGo t true rest
    else if c == t then c :: dropAfterGo t true rest
    else c :: dropAfterGo t false rest

/-- `removeWhitespace(content, isWhitespaceSensitive)` from the source
(identical in all three variants). -/
def removeWhitespace (content : List Char) (isWhitespaceSensitive : Bool) : List Char :=
  if isWhitespaceSensitive then
    joinSep '\n' (((splitNlL content).map trimEndL).filter (fun line => !(trimL line).isEmpty))
  else
    dropAfterGo ',' false (dropAfterGo ';' false (brGo false [] (collapseGo false
      (joinSep ' ' (((splitNlL content).map trimL).filter (fun line => !line.isEmpty))))))

/-- `WHITESPACE_SENSITIVE_EXTENSIONS` from the source. -/
def WHITESPACE_SENSITIVE_EXTENSIONS : List String :=
  [".py", ".yaml", ".yml", ".jade", ".haml", ".slim", ".coffee", ".pug", ".styl"]

/-- `GLOBAL_IGNORES` from the source, transcribed verbatim (including the
duplicated `target/**` entry). -/
def GLOBAL_IGNORES : List String :=
  ["node_modules/**", "package-lock.json", "npm-debug.log",
   "yarn.lock", "yarn-error.log",
   "pnpm-lock.yaml",
   "bun.lockb",
   "deno.lock",
   "vendor/**", "composer.lock",
   "__pycache__/**", "**/*.pyc", "**/*.pyo", "**/*.pyd", ".Python",
   "pip-log.txt", "pip-delete-this-directory.txt",
   ".venv/**", "venv/**", "ENV/**", "env/**",
   "Gemfile.lock", ".bundle/**",
   "target/**", "**/*.class",
   ".gradle/**", "build/**",
   "pom.xml.tag", "pom.xml.releaseBackup", "pom.xml.versionsBackup", "pom.xml.next",
   "bin/**", "obj/**", "**/*.suo", "**/*.user",
   "go.sum",
   "Cargo.lock", "target/**",
   ".git/**", ".svn/**", ".hg/**", ".DS_Store", "Thumbs.db",
   ".env", ".env.local", ".env.development.local", ".env.test.local",
   ".env.production.local", "**/*.env", "**/*.env.*",
   ".svelte-kit/**", ".next/**", ".nuxt/**", ".vuepress/**", ".cache/**",
   "dist/**", "tmp/**",
   "ai-kb-*.md"]

/-- `GLOBAL_IGNORES` as character lists, the form handed to the glob
matcher. -/
def globalIgnoresL : List (List Char) := GLOBAL_IGNORES.map String.toList

/-- An entry of the project tree the glob library walks: a relative path and
whether it is a directory. -/
structure FSEntry where
  path : List Char
  isDir : Bool
deriving DecidableEq

/-- `glob(pat, { ignore, nodir })`: the entries of the tree matched by `pat`,
minus directories when `nodir` is set, minus any path matching an `ignore`
pattern. -/
def globFiles (m : List Char → List Char → Bool) (fs : List FSEntry) (pat : List Char)
    (ignores : List (List Char)) (nodir : Bool) : List (List Char) :=
  (fs.filter (fun en =>
    m pat en.path && !(nodir && en.isDir) &&
    !(ignores.any (fun ig => m ig en.path)))).map FSEntry.path

/-- The body of the include loop of `getMatchingFiles` in the first two
variants: `+`-prefixed patterns are resolved with the `+` stripped and an
empty ignore list, all other patterns with `GLOBAL_IGNORES`; both with
`nodir: true`.  (The first variant also computes an `explicitIncludes`
list from `GLOBAL_IGNORES` that it never uses; that dead local is omitted.) -/
def resolveIncludePattern (m : List Char → List Char → Bool) (fs : List FSEntry)
    (pattern : List Char) : List (List Char) :=
  if leadEq (("+").toList) pattern then globFiles m fs (pattern.drop 1) [] true
  else globFiles m fs pattern globalIgnoresL true

/-- `getMatchingFiles(patterns, excludePatterns)` of the first two variants:
per-pattern matches are concatenated into `files`, then each exclude pattern
is resolved with `glob(pattern, { nodir: true })` (no ignore list) and its
matches are filtered out. -/
def getMatchingFiles (m : List Char → List Char → Bool) (fs : List FSEntry)
    (patterns excludePatterns : List (List Char)) : List (List Char) :=
  let files := patterns.foldl (fun acc pattern => acc ++ resolveIncludePattern m fs pattern) []
  excludePatterns.foldl (fun acc pattern =>
    acc.filter (fun file => !(globFiles m fs pattern [] true).contains file)) files

/-- The per-section classification done in `main`: patterns not starting with
`-` are includes, the rest are excludes with the `-` stripped. -/
def processSection (m : List Char → List Char → Bool) (fs : List FSEntry)
    (patterns : List (List Char)) : List (List Char) :=
  getMatchingFiles m fs
    (patterns.filter (fun p => !leadEq (("-").toList) p))
    ((patterns.filter (fun p => leadEq (("-").toList) p)).map (fun p => p.drop 1))

/-- `ignore.replace('/**', '').replace('**/', '')` as used by the third
variant's `explicitInclude` check. -/
def strippedIgnoreBase (ig : List Char) : List Char :=
  replaceFirstL (("**/").toList) [] (replaceFirstL (("/**").toList) [] ig)

/-- `glob(patterns)` with no options, as called by the third variant: entries
(including directories) matching any pattern of the array. -/
def globL (m : List Char → List Char → Bool) (fs : List FSEntry)
    (pats : List (List Char)) : List (List Char) :=
  (fs.filter (fun en => pats.any (fun q => m q en.path))).map FSEntry.path

/-- The body of the include loop of the third variant's `getMatchingFiles`:
a pattern whose text contains the base of some `GLOBAL_IGNORES` entry is
treated as an explicit include and resolved as-is (no ignore filtering, no
`+`-stripping); otherwise the pattern is resolved together with the negated
ignore patterns in one array.  Neither call passes a `nodir` option. -/
def resolveIncludePatternV3 (m : List Char → List Char → Bool) (fs : List FSEntry)
    (pattern : List Char) : List (List Char) :=
  if globalIgnoresL.any (fun ig => isSubstrL (strippedIgnoreBase ig) pattern) then
    globL m fs [pattern]
  else globL m fs (pattern :: globalIgnoresL.map (fun p => '!' :: p))

/-- `getMatchingFiles` of the third variant.  The exclude-pattern calls also
pass no `nodir` option. -/
def getMatchingFilesV3 (m : List Char → List Char → Bool) (fs : List FSEntry)
    (patterns excludePatterns : List (List Char)) : List (List Char) :=
  let files := patterns.foldl (fun acc pattern =>
    acc ++ resolveIncludePatternV3 m fs pattern) []
  excludePatterns.foldl (fun acc pattern =>
    acc.filter (fun file => !(globL m fs [pattern]).contains file)) files

/-- Per-section classification for the third variant (its `main` is identical
in this respect). -/
def processSectionV3 (m : List Char → List Char → Bool) (fs : List FSEntry)
    (patterns : List (List Char)) : List (List Char) :=
  getMatchingFilesV3 m fs
    (patterns.filter (fun p => !leadEq (("-").toList) p))
    ((patterns.filter (fun p => leadEq (("-").toList) p)).map (fun p => p.drop 1))

/-- The basename part of a path (the text after the last `/`). -/
def lastComp (l : List Char) : List Char :=
  l.foldl (fun acc c => if c == '/' then [] else acc ++ [c]) []

/-- The suffix of `l` starting at the last `'.'` of `l`, if any. -/
def extTail : List Char → Option (List Char)
  | [] => none
  | c :: rest =>
    match extTail rest with
    | some s => some s
    | none => if c == '.' then some (c :: rest) else none

/-- `path.extname`: the extension of the basename, starting at its last dot,
except that a dot in the first position (hidden files) yields no extension. -/
def extnameL (p : List Char) : List Char :=
  match lastComp p with
  | [] => []
  | _ :: rest =>
    match extTail rest with
    | some s => s
    | none => []

/-- The per-file callback of `generateMarkdown`: read the file, normalize by
extension sensitivity, and render the block
`## file` + fenced code with the extension tag. -/
def renderFileBlock (reader : List Char → Except String (List Char))
    (file : List Char) : Except String (List Char) := do
  let content ← reader file
  let extension := extnameL file
  let isWhitespaceSensitive :=
    (WHITESPACE_SENSITIVE_EXTENSIONS.map String.toList).contains extension
  let processedContent := removeWhitespace content isWhitespaceSensitive
  pure ((("## ").toList) ++ file ++ (("\n```").toList) ++ extension.drop 1 ++
    ('\n' :: processedContent) ++ (("\n```").toList))

/-- `generateMarkdown(files)` (identical in all three variants): reads every
file, normalizes it according to its extension's whitespace sensitivity, and
renders the per-file blocks joined by blank lines.  `Promise.all` rejects as
soon as one `fs.readFile` rejects, which is modelled by the `Except` monad's
`mapM`. -/
def generateMarkdown (reader : List Char → Except String (List Char))
    (files : List (List Char)) : Except String (List Char) := do
  let markdowns ← files.mapM (renderFileBlock reader)
  pure (List.intercalate (("\n\n").toList) markdowns)

/-- One iteration of the section loop of `main` (first variant): classify
the section's pattern lines, resolve them, and — when at least one file
matched — render the markdown and record the `ai-kb-<section>.md` output.
A section with no files produces no output. -/
def processOneSection (m : List Char → List Char → Bool) (fs : List FSEntry)
    (reader : List Char → Except String (List Char))
    (outputs : List (List Char × List Char)) (sec : List Char × List (List Char)) :
    Except String (List (List Char × List Char)) :=
  let includePatterns := sec.2.filter (fun p => !leadEq (("-").toList) p)
  let excludePatterns :=
    (sec.2.filter (fun p => leadEq (("-").toList) p)).map (fun p => p.drop 1)
  let files := getMatchingFiles m fs includePatterns excludePatterns
  if files.length > 0 then do
    let markdown ← generateMarkdown reader files
    pure (outputs ++ [((("ai-kb-").toList) ++ sec.1 ++ ((".md").toList), markdown)])
  else pure outputs

/-- The run of `main` of the first variant after config parsing, returning
the list of `(output file, markdown)` pairs it writes.  A missing config file
(`config = none`) aborts with `ConfigNotFound` (the source calls
`process.exit(1)`); any error thrown while processing a section propagates
out of the loop to `main().catch`, which also exits with status 1 — both are
modelled as `Except.error`. -/
def mainRun (m : List Char → List Char → Bool) (fs : List FSEntry)
    (reader : List Char → Except String (List Char)) :
    Option (List (List Char × List (List Char))) →
      Except String (List (List Char × List Char))
  | none => Except.error ("ConfigNotFound")
  | some sections => sections.foldlM (processOneSection m fs reader) []

/-- State of the config-parsing loop of `readConfig`: the accumulated
section map (insertion-ordered, as a JavaScript object) and the currently
open section name (`null` before the first header). -/
structure ParseState where
  config : List (List Char × List (List Char))
  current : Option (List Char)
deriving DecidableEq

/-- `config[name] = []`: set the key to the empty list, keeping its original
position if it already exists (JavaScript object key semantics). -/
def setAssoc : List (List Char × List (List Char)) → List Char → List (List Char × List (List Char))
  | [], name => [(name, [])]
  | (k, v) :: rest, name =>
    if k = name then (name, []) :: rest else (k, v) :: setAssoc rest name

/-- `config[name].push(line)` (the key is always present when the source
executes this). -/
def pushAssoc : List (List Char × List (List Char)) → List Char → List Char →
    List (List Char × List (List Char))
  | [], _, _ => []
  | (k, v) :: rest, name, line =>
    if k = name then (k, v ++ [line]) :: rest else (k, v) :: pushAssoc rest name line

/-- Lookup in the section map. -/
def lookupA : List (List Char × List (List Char)) → List Char → Option (List (List Char))
  | [], _ => none
  | (k, v) :: rest, name => if k = name then some v else lookupA rest name

/-- `line.startsWith('[') && line.endsWith(']')` on a trimmed line. -/
def isHeaderL (line : List Char) : Bool :=
  (line.head? == some '[') && (line.getLast? == some ']')

/-- `line.slice(1, -1)`: the section name between the brackets. -/
def headerNameL (line : List Char) : List Char := (line.drop 1).dropLast

/-- One iteration of the `forEach` in `readConfig`: trim the line; a header
opens (and resets) its section; otherwise the line is appended to the open
section provided both the current section name and the line are truthy
(non-empty) strings. -/
def parseLine (st : ParseState) (rawLine : List Char) : ParseState :=
  let line := trimL rawLine
  if isHeaderL line then
    let name := headerNameL line
    ParseState.mk (setAssoc st.config name) (some name)
  else
    match st.current with
    | some name =>
      if !name.isEmpty && !line.isEmpty then
        ParseState.mk (pushAssoc st.config name line) st.current
      else st
    | none => st

/-- The whole parsing loop of `readConfig` over a list of raw lines. -/
def parseLines (ls : List (List Char)) : ParseState :=
  ls.foldl parseLine (ParseState.mk [] none)

/-- `readConfig` (identical in all three variants), applied to the text of
`.ai-kb-config` after the existence check: split on newlines and fold. -/
def readConfig (configContent : List Char) : List (List Char × List (List Char)) :=
  (parseLines (splitNlL configContent)).config

/-! ### Concrete scenario data and proof predicates

The matchers `mC1` ... `mC6w` stand for the behavior of the `minimatch`
library on the specific patterns of each scenario; the `fsC*` lists are the
project trees, and `allSpace` ... `twOK` are the invariants used in the
idempotence proof. -/

/-- A matcher standing for minimatch on the patterns of C1's scenario.  The
unstripped pattern `+node_modules/pkg-a/**/*.js` matches nothing because a
leading `+` is a literal character for the glob library (extglob syntax
requires `+(`). -/
def mC1 : List Char → List Char → Bool := fun q p =>
  q == (("node_modules/pkg-a/**/*.js").toList) &&
    p == (("node_modules/pkg-a/index.js").toList)

def fsC1 : List FSEntry := [FSEntry.mk (("node_modules/pkg-a/index.js").toList) false]

/-- A matcher standing for minimatch on the patterns of C2's scenario. -/
def mC2 : List Char → List Char → Bool := fun q p =>
  (q == (("node_modules/**/*.js").toList) || q == (("node_modules/**").toList)) &&
    p == (("node_modules/pkg-a/index.js").toList)

def fsC2 : List FSEntry := [FSEntry.mk (("node_modules/pkg-a/index.js").toList) false]

/-- A matcher standing for minimatch on the patterns of C3's scenario. -/
def mC3 : List Char → List Char → Bool := fun q p =>
  (q == (("src/**/*.js").toList) || q == (("src/legacy/a.js").toList)) &&
    p == (("src/legacy/a.js").toList)

def fsC3 : List FSEntry := [FSEntry.mk (("src/legacy/a.js").toList) false]

/-- A matcher standing for minimatch on the patterns of C6's scenario. -/
def mC6 : List Char → List Char → Bool := fun q p =>
  q == (("vendor/*").toList) && p == (("vendor/sub").toList)

def fsC6 : List FSEntry := [FSEntry.mk (("vendor/sub").toList) true]

/-- A second concrete tree for C6's witness: a file and a directory, where
only the file is matched. -/
def mC6w : List Char → List Char → Bool := fun q p =>
  q == (("src/*").toList) &&
    (p == (("src/a.js").toList) || p == (("src/sub").toList))

def fsC6w : List FSEntry :=
  [FSEntry.mk (("src/a.js").toList) false, FSEntry.mk (("src/sub").toList) true]

/-- A matcher standing for minimatch on the patterns of C4's scenario. -/
def mC4 : List Char → List Char → Bool := fun q p =>
  (q == (("src/**/*.js").toList) || q == (("src/a.js").toList)) &&
    p == (("src/a.js").toList)

def fsC4 : List FSEntry := [FSEntry.mk (("src/a.js").toList) false]

/-- A matcher, tree, failing reader and present configuration for C5's
scenario. -/
def mC5 : List Char → List Char → Bool := fun q p =>
  q == (("a.js").toList) && p == (("a.js").toList)

def fsC5 : List FSEntry := [FSEntry.mk (("a.js").toList) false]

def readerC5 : List Char → Except String (List Char) := fun _ => Except.error ("boom")

def cfgC5 : Option (List (List Char × List (List Char))) :=
  some [((("main").toList), [("a.js").toList])]

/-- All whitespace characters of `l` are plain spaces. -/
def allSpace (l : List Char) : Prop := ∀ c ∈ l, isWSChar c = true → c = ' '

/-- The first character of `l`, if any, is not whitespace. -/
def headNW (l : List Char) : Prop := ∀ c, l.head? = some c → isWSChar c = false

/-- The last character of `l`, if any, is not whitespace. -/
def lastNW (l : List Char) : Prop := ∀ c, l.getLast? = some c → isWSChar c = false

/-- No two adjacent whitespace characters. -/
def wwOK (a b : Char) : Prop := ¬(isWSChar a = true ∧ isWSChar b = true)

/-- No whitespace adjacent to a bracket character. -/
def wbOK (a b : Char) : Prop :=
  ¬(isWSChar a = true ∧ isBracketChar b = true) ∧
    ¬(isBracketChar a = true ∧ isWSChar b = true)

/-- No whitespace immediately after the trigger character `t`. -/
def twOK (t : Char) (a b : Char) : Prop := ¬(a = t ∧ isWSChar b = true)

/-- The non-sensitive branch of `removeWhitespace`, named for the proofs. -/
def nsPipeline (c : List Char) : List Char :=
  dropAfterGo ',' false (dropAfterGo ';' false (brGo false [] (collapseGo false
    (joinSep ' ' (((splitNlL c).map trimL).filter (fun line => !line.isEmpty))))))

/-! ### Membership lemmas for the selection resolver -/

theorem mem_globFiles {m : List Char → List Char → Bool} {fs : List FSEntry}
    {pat : List Char} {igns : List (List Char)} {nodir : Bool} {p : List Char} :
    p ∈ globFiles m fs pat igns nodir ↔
      ∃ en ∈ fs, en.path = p ∧ m pat en.path = true ∧ (nodir && en.isDir) = false ∧
        (igns.any (fun ig => m ig en.path)) = false := by
  simp only [globFiles, List.mem_map, List.mem_filter, Bool.and_eq_true, Bool.not_eq_true']
  constructor
  · rintro ⟨en, ⟨hen, ⟨h1, h2⟩, h3⟩, rfl⟩
    exact ⟨en, hen, rfl, h1, h2, h3⟩
  · rintro ⟨en, hen, rfl, h1, h2, h3⟩
    exact ⟨en, ⟨hen, ⟨h1, h2⟩, h3⟩, rfl⟩

theorem mem_globL {m : List Char → List Char → Bool} {fs : List FSEntry}
    {pats : List (List Char)} {p : List Char} :
    p ∈ globL m fs pats ↔ ∃ en ∈ fs, en.path = p ∧ ∃ q ∈ pats, m q en.path = true := by
  simp only [globL, List.mem_map, List.mem_filter, List.any_eq_true]
  constructor
  · rintro ⟨en, ⟨hen, q, hq, hm⟩, rfl⟩
    exact ⟨en, hen, rfl, q, hq, hm⟩
  · rintro ⟨en, hen, rfl, q, hq, hm⟩
    exact ⟨en, ⟨hen, q, hq, hm⟩, rfl⟩

theorem mem_foldl_append {α β : Type} (g : α → List β) (ps : List α)
    (acc : List β) (p : β) :
    p ∈ ps.foldl (fun a q => a ++ g q) acc ↔ p ∈ acc ∨ ∃ q ∈ ps, p ∈ g q := by
  induction ps generalizing acc with
  | nil => simp
  | cons x xs ih =>
    simp only [List.foldl_cons, ih, List.mem_append, List.mem_cons]
    constructor
    · rintro ((h | h) | ⟨q, hq, hp⟩)
      exacts [Or.inl h, Or.inr ⟨x, Or.inl rfl, h⟩, Or.inr ⟨q, Or.inr hq, hp⟩]
    · rintro (h | ⟨q, rfl | hq, hp⟩)
      exacts [Or.inl (Or.inl h), Or.inl (Or.inr hp), Or.inr ⟨q, hq, hp⟩]

theorem mem_foldl_excl (E : List Char → List (List Char)) (excls : List (List Char))
    (lst : List (List Char)) (p : List Char) :
    p ∈ excls.foldl (fun acc q => acc.filter (fun f => !(E q).contains f)) lst ↔
      p ∈ lst ∧ ∀ q ∈ excls, p ∉ E q := by
  induction excls generalizing lst with
  | nil => simp
  | cons x xs ih =>
    rw [List.foldl_cons, ih]
    constructor
    · rintro ⟨hmem, hrest⟩
      rw [List.mem_filter] at hmem
      obtain ⟨h1, h2⟩ := hmem
      have h2' : p ∉ E x := by simpa using h2
      refine ⟨h1, fun q hq => ?_⟩
      rcases List.mem_cons.mp hq with rfl | hq'
      · exact h2'
      · exact hrest q hq'
    · rintro ⟨h1, h2⟩
      refine ⟨?_, fun q hq => h2 q (List.mem_cons_of_mem _ hq)⟩
      rw [List.mem_filter]
      exact ⟨h1, by simpa using h2 x (List.mem_cons_self _ _)⟩

theorem mem_getMatchingFiles {m : List Char → List Char → Bool} {fs : List FSEntry}
    {patterns excludePatterns : List (List Char)} {p : List Char} :
    p ∈ getMatchingFiles m fs patterns excludePatterns ↔
      (∃ q ∈ patterns, p ∈ resolveIncludePattern m fs q) ∧
        ∀ e ∈ excludePatterns, p ∉ globFiles m fs e [] true := by
  unfold getMatchingFiles
  rw [mem_foldl_excl (fun e => globFiles m fs e [] true),
    mem_foldl_append (fun q => resolveIncludePattern m fs q)]
  simp

theorem mem_getMatchingFilesV3 {m : List Char → List Char → Bool} {fs : List FSEntry}
    {patterns excludePatterns : List (List Char)} {p : List Char} :
    p ∈ getMatchingFilesV3 m fs patterns excludePatterns ↔
      (∃ q ∈ patterns, p ∈ resolveIncludePatternV3 m fs q) ∧
        ∀ e ∈ excludePatterns, p ∉ globL m fs [e] := by
  unfold getMatchingFilesV3
  rw [mem_foldl_excl (fun e => globL m fs [e]),
    mem_foldl_append (fun q => resolveIncludePatternV3 m fs q)]
  simp

/-! ### Claim C1: explicit includes bypass the Ignore Catalogue -/

/-- Claim C1 (amended): in the first two source variants, a `+`-prefixed
pattern is resolved with the `+` stripped and no Ignore Catalogue filtering,
so a file path matching its glob and no exclude pattern of the section is in
the Resolved File Set even when it matches a catalogue entry. -/
theorem explicit_include_bypasses_catalogue
    (m : List Char → List Char → Bool) (fs : List FSEntry)
    (patterns : List (List Char)) (pat p : List Char)
    (hmem : pat ∈ patterns) (hplus : leadEq (("+").toList) pat = true)
    (hminus : leadEq (("-").toList) pat = false)
    (hmatch : m (pat.drop 1) p = true)
    (hfile : FSEntry.mk p false ∈ fs)
    (hexcl : ∀ q ∈ patterns, leadEq (("-").toList) q = true → m (q.drop 1) p = false) :
    p ∈ processSection m fs patterns := by
  unfold processSection
  rw [mem_getMatchingFiles]
  constructor
  · refine ⟨pat, List.mem_filter.mpr ⟨hmem, by rw [hminus]; rfl⟩, ?_⟩
    unfold resolveIncludePattern
    rw [hplus]
    simp only [if_true]
    rw [mem_globFiles]
    exact ⟨FSEntry.mk p false, hfile, rfl, hmatch, rfl, rfl⟩
  · intro e he hpe
    simp only [List.mem_map, List.mem_filter] at he
    obtain ⟨q, ⟨hq, hqs⟩, rfl⟩ := he
    rw [mem_globFiles] at hpe
    obtain ⟨en, _, rfl, hm, _, _⟩ := hpe
    rw [hexcl q hq hqs] at hm
    exact Bool.noConfusion hm

/-- Claim C1 counterexample: in the third variant the `+` prefix is never
stripped, so the file matching the stripped glob is not in the Resolved File
Set even though the pattern is an ExplicitInclude, the file exists and no
exclude pattern matches it. -/
theorem plus_prefix_not_stripped_in_v3 :
    processSectionV3 mC1 fsC1 [("+node_modules/pkg-a/**/*.js").toList] = [] ∧
    leadEq (("+").toList) (("+node_modules/pkg-a/**/*.js").toList) = true ∧
    mC1 ((("+node_modules/pkg-a/**/*.js").toList).drop 1)
      (("node_modules/pkg-a/index.js").toList) = true ∧
    FSEntry.mk (("node_modules/pkg-a/index.js").toList) false ∈ fsC1 := by decide

/-- Witness for C1's amended theorem at a concrete input. -/
theorem explicit_include_bypasses_catalogue_wit :
    (("node_modules/pkg-a/index.js").toList) ∈
      processSection mC1 fsC1 [("+node_modules/pkg-a/**/*.js").toList] :=
  explicit_include_bypasses_catalogue mC1 fsC1
    [("+node_modules/pkg-a/**/*.js").toList]
    (("+node_modules/pkg-a/**/*.js").toList)
    (("node_modules/pkg-a/index.js").toList)
    (by decide) (by decide) (by decide) (by decide) (by decide) (by decide)

/-! ### Claim C2: normal includes respect the Ignore Catalogue -/

/-- Claim C2 (amended): in the first two source variants, the full Ignore
Catalogue is applied as a subtraction to every NormalInclude pattern's
matches, so a path matching some catalogue entry is never contributed by
such a pattern. -/
theorem normal_include_respects_catalogue
    (m : List Char → List Char → Bool) (fs : List FSEntry) (pat p : List Char)
    (hplus : leadEq (("+").toList) pat = false)
    (_hminus : leadEq (("-").toList) pat = false)
    (hig : ∃ ig ∈ globalIgnoresL, m ig p = true) :
    p ∉ resolveIncludePattern m fs pat := by
  intro hp
  unfold resolveIncludePattern at hp
  rw [hplus] at hp
  simp only [if_false, Bool.false_eq_true] at hp
  rw [mem_globFiles] at hp
  obtain ⟨en, _, rfl, _, _, hany⟩ := hp
  obtain ⟨ig, hig1, hig2⟩ := hig
  have htrue : (globalIgnoresL.any fun ig => m ig en.path) = true :=
    List.any_eq_true.mpr ⟨ig, hig1, hig2⟩
  rw [hany] at htrue
  exact Bool.noConfusion htrue

/-- Claim C2 counterexample: in the third variant, a NormalInclude pattern
whose text contains the base of a catalogue entry (here `node_modules`) is
resolved with no catalogue filtering, so the catalogue-matching path is
contributed to the Resolved File Set. -/
theorem normal_include_bypasses_catalogue_in_v3 :
    processSectionV3 mC2 fsC2 [("node_modules/**/*.js").toList] =
      [("node_modules/pkg-a/index.js").toList] ∧
    leadEq (("+").toList) (("node_modules/**/*.js").toList) = false ∧
    leadEq (("-").toList) (("node_modules/**/*.js").toList) = false ∧
    (("node_modules/**").toList) ∈ globalIgnoresL ∧
    mC2 (("node_modules/**").toList) (("node_modules/pkg-a/index.js").toList) = true ∧
    mC2 (("node_modules/**/*.js").toList) (("node_modules/pkg-a/index.js").toList) = true := by
  decide

/-- Witness for C2's amended theorem at a concrete input. -/
theorem normal_include_respects_catalogue_wit :
    (("node_modules/pkg-a/index.js").toList) ∉
      resolveIncludePattern mC2 fsC2 (("node_modules/**/*.js").toList) :=
  normal_include_respects_catalogue mC2 fsC2 _ _
    (by decide) (by decide) ⟨(("node_modules/**").toList), by decide, by decide⟩

/-! ### Claim C3: excludes always win -/

/-- Claim C3: in both resolver variants, exclude patterns are applied after
the include union with no Ignore Catalogue filtering, so every path matched
by some exclude pattern of the section is absent from the Resolved File Set
regardless of which include pattern produced it. -/
theorem exclude_always_wins
    (m : List Char → List Char → Bool) (fs : List FSEntry)
    (patterns : List (List Char)) (p q : List Char)
    (hq : q ∈ patterns) (hqs : leadEq (("-").toList) q = true)
    (hmatch : m (q.drop 1) p = true) :
    p ∉ processSection m fs patterns ∧ p ∉ processSectionV3 m fs patterns := by
  constructor
  · intro hp
    unfold processSection at hp
    rw [mem_getMatchingFiles] at hp
    obtain ⟨⟨q', _, hp'⟩, hexcl⟩ := hp
    have hen : ∃ en ∈ fs, en.path = p ∧ en.isDir = false := by
      unfold resolveIncludePattern at hp'
      split at hp' <;>
      · rw [mem_globFiles] at hp'
        obtain ⟨en, hen1, rfl, _, hdir, _⟩ := hp'
        exact ⟨en, hen1, rfl, by simpa using hdir⟩
    obtain ⟨en, hen1, rfl, hdir⟩ := hen
    refine hexcl (q.drop 1) (List.mem_map.mpr ⟨q, List.mem_filter.mpr ⟨hq, hqs⟩, rfl⟩) ?_
    rw [mem_globFiles]
    exact ⟨en, hen1, rfl, hmatch, by simp [hdir], rfl⟩
  · intro hp
    unfold processSectionV3 at hp
    rw [mem_getMatchingFilesV3] at hp
    obtain ⟨⟨q', _, hp'⟩, hexcl⟩ := hp
    have hen : ∃ en ∈ fs, en.path = p := by
      unfold resolveIncludePatternV3 at hp'
      split at hp' <;>
      · rw [mem_globL] at hp'
        obtain ⟨en, hen1, rfl, _⟩ := hp'
        exact ⟨en, hen1, rfl⟩
    obtain ⟨en, hen1, rfl⟩ := hen
    refine hexcl (q.drop 1) (List.mem_map.mpr ⟨q, List.mem_filter.mpr ⟨hq, hqs⟩, rfl⟩) ?_
    rw [mem_globL]
    exact ⟨en, hen1, rfl, q.drop 1, List.mem_singleton.mpr rfl, hmatch⟩

/-- Witness for C3 at a concrete input: `src/legacy/a.js` matches the include
`src/**/*.js` but is excluded by `-src/legacy/a.js`. -/
theorem exclude_always_wins_wit :
    (("src/legacy/a.js").toList) ∉
      processSection mC3 fsC3 [("src/**/*.js").toList, ("-src/legacy/a.js").toList] ∧
    (("src/legacy/a.js").toList) ∉
      processSectionV3 mC3 fsC3 [("src/**/*.js").toList, ("-src/legacy/a.js").toList] :=
  exclude_always_wins mC3 fsC3
    [("src/**/*.js").toList, ("-src/legacy/a.js").toList]
    (("src/legacy/a.js").toList) (("-src/legacy/a.js").toList)
    (by decide) (by decide) (by decide)

/-! ### Claim C6: only regular files are matched -/

/-- Claim C6 (amended): in the first two source variants every glob call
passes `nodir: true`, so every member of the resolved list is the path of a
non-directory entry of the tree. -/
theorem resolver_matches_files_only
    (m : List Char → List Char → Bool) (fs : List FSEntry)
    (patterns excludePatterns : List (List Char)) (p : List Char)
    (hp : p ∈ getMatchingFiles m fs patterns excludePatterns) :
    ∃ en ∈ fs, en.path = p ∧ en.isDir = false := by
  rw [mem_getMatchingFiles] at hp
  obtain ⟨⟨q, _, hp'⟩, _⟩ := hp
  unfold resolveIncludePattern at hp'
  split at hp' <;>
  · rw [mem_globFiles] at hp'
    obtain ⟨en, hen1, rfl, _, hdir, _⟩ := hp'
    exact ⟨en, hen1, rfl, by simpa using hdir⟩

/-- Claim C6 counterexample: in the third variant `glob` is called without
`nodir`, so the directory `vendor/sub` (matched by the pattern `vendor/*`,
which the variant treats as an explicit include because it contains the
catalogue base `vendor`) enters the Resolved File Set. -/
theorem directory_enters_set_in_v3 :
    processSectionV3 mC6 fsC6 [("vendor/*").toList] = [("vendor/sub").toList] ∧
    FSEntry.mk (("vendor/sub").toList) true ∈ fsC6 ∧
    (∀ en ∈ fsC6, en.path = (("vendor/sub").toList) → en.isDir = true) := by decide

/-- Witness for C6's amended theorem at a concrete input. -/
theorem resolver_matches_files_only_wit :
    ∃ en ∈ fsC6w, en.path = (("src/a.js").toList) ∧ en.isDir = false :=
  resolver_matches_files_only mC6w fsC6w [("src/*").toList] []
    (("src/a.js").toList) (by decide)

/-! ### Claim C4: no deduplication across include patterns -/

/-- Claim C4 counterexample: two include patterns matching the same path make
that path occur twice in the section result — the per-pattern match lists are
concatenated, never deduplicated. -/
theorem duplicate_path_not_deduplicated :
    processSection mC4 fsC4 [("src/**/*.js").toList, ("src/a.js").toList] =
      [("src/a.js").toList, ("src/a.js").toList] ∧
    (processSection mC4 fsC4 [("src/**/*.js").toList, ("src/a.js").toList]).count
      (("src/a.js").toList) ≠ 1 := by decide

theorem nodup_globFiles {m : List Char → List Char → Bool} {fs : List FSEntry}
    {pat : List Char} {igns : List (List Char)} {nodir : Bool}
    (hnd : (fs.map FSEntry.path).Nodup) : (globFiles m fs pat igns nodir).Nodup := by
  unfold globFiles
  exact List.Nodup.sublist ((List.filter_sublist fs).map FSEntry.path) hnd

theorem count_nodup {l : List (List Char)} (h : l.Nodup) (p : List Char) :
    l.count p = if p ∈ l then 1 else 0 := by
  induction l with
  | nil => simp
  | cons x xs ih =>
    rw [List.nodup_cons] at h
    rw [List.count_cons, ih h.2]
    by_cases hpx : p = x
    · subst hpx
      simp [h.1]
    · have hxp : ¬x = p := fun h' => hpx h'.symm
      simp [hpx, hxp, List.mem_cons]

theorem count_foldl_append (g : List Char → List (List Char))
    (ps : List (List Char)) (acc : List (List Char)) (p : List Char)
    (hg : ∀ q, (g q).count p = if p ∈ g q then 1 else 0) :
    (ps.foldl (fun a q => a ++ g q) acc).count p =
      acc.count p + (ps.filter (fun q => decide (p ∈ g q))).length := by
  induction ps generalizing acc with
  | nil => simp
  | cons x xs ih =>
    rw [List.foldl_cons, ih, List.count_append, hg x]
    by_cases hx : p ∈ g x
    · simp only [hx, if_true, List.filter_cons, decide_eq_true_eq]
      simp [hx, List.length_cons]
      omega
    · simp only [hx, if_false, List.filter_cons, decide_eq_true_eq]
      simp [hx]

theorem count_foldl_excl (E : List Char → List (List Char))
    (excls : List (List Char)) (lst : List (List Char)) (p : List Char)
    (hnotex : ∀ q ∈ excls, p ∉ E q) :
    (excls.foldl (fun acc q => acc.filter (fun f => !(E q).contains f)) lst).count p =
      lst.count p := by
  induction excls generalizing lst with
  | nil => rfl
  | cons x xs ih =>
    rw [List.foldl_cons, ih _ (fun q hq => hnotex q (List.mem_cons_of_mem _ hq))]
    exact List.count_filter (by simpa using hnotex x (List.mem_cons_self _ _))

/-- Claim C4 (amended): the section result is the concatenation of the
per-pattern match lists, filtered by the excludes; when the tree has no
duplicate paths and no exclude pattern matches `p`, the number of occurrences
of `p` equals the number of include patterns whose resolution contains it —
one occurrence per contributing pattern, not one occurrence overall. -/
theorem include_matches_counted_per_pattern
    (m : List Char → List Char → Bool) (fs : List FSEntry)
    (patterns : List (List Char)) (p : List Char)
    (hnd : (fs.map FSEntry.path).Nodup)
    (hexcl : ∀ q ∈ patterns, leadEq (("-").toList) q = true → m (q.drop 1) p = false) :
    (processSection m fs patterns).count p =
      ((patterns.filter (fun q => !leadEq (("-").toList) q)).filter
        (fun q => decide (p ∈ resolveIncludePattern m fs q))).length := by
  unfold processSection getMatchingFiles
  rw [count_foldl_excl]
  · rw [count_foldl_append]
    · simp
    · intro q
      have : (resolveIncludePattern m fs q).Nodup := by
        unfold resolveIncludePattern
        split <;> exact nodup_globFiles hnd
      exact count_nodup this p
  · intro e he hpe
    simp only [List.mem_map, List.mem_filter] at he
    obtain ⟨q, ⟨hq, hqs⟩, rfl⟩ := he
    rw [mem_globFiles] at hpe
    obtain ⟨en, _, rfl, hm, _, _⟩ := hpe
    rw [hexcl q hq hqs] at hm
    exact Bool.noConfusion hm

/-- Witness for C4's amended theorem at a concrete input: the path matched by
both patterns is counted twice. -/
theorem include_matches_counted_per_pattern_wit :
    (processSection mC4 fsC4 [("src/**/*.js").toList, ("src/a.js").toList]).count
        (("src/a.js").toList) =
      (([("src/**/*.js").toList, ("src/a.js").toList].filter
          (fun q => !leadEq (("-").toList) q)).filter
        (fun q => decide ((("src/a.js").toList) ∈ resolveIncludePattern mC4 fsC4 q))).length :=
  include_matches_counted_per_pattern mC4 fsC4
    [("src/**/*.js").toList, ("src/a.js").toList] (("src/a.js").toList)
    (by decide) (by decide)

/-! ### Claim C5: a file read error is fatal to the whole run -/

theorem renderFileBlock_error (reader : List Char → Except String (List Char))
    (f : List Char) (e : String) (he : reader f = Except.error e) :
    renderFileBlock reader f = Except.error e := by
  unfold renderFileBlock
  rw [he]
  rfl

theorem mapM_loop_error {α β : Type} (Φ : α → Except String β) (l : List α)
    (acc : List β) (a : α) (ha : a ∈ l) (e : String) (he : Φ a = Except.error e) :
    ∃ e', List.mapM.loop Φ l acc = Except.error e' := by
  induction l generalizing acc with
  | nil => cases ha
  | cons x xs ih =>
    rcases List.mem_cons.mp ha with rfl | ha'
    · refine ⟨e, ?_⟩
      simp only [List.mapM.loop]
      rw [he]
      rfl
    · cases hx : Φ x with
      | error e2 =>
        refine ⟨e2, ?_⟩
        simp only [List.mapM.loop]
        rw [hx]
        rfl
      | ok y =>
        obtain ⟨e2, hloop⟩ := ih (y :: acc) ha'
        refine ⟨e2, ?_⟩
        simp only [List.mapM.loop]
        rw [hx]
        exact hloop

theorem generateMarkdown_error (reader : List Char → Except String (List Char))
    (files : List (List Char)) (f : List Char) (hf : f ∈ files) (e : String)
    (he : reader f = Except.error e) :
    ∃ e', generateMarkdown reader files = Except.error e' := by
  obtain ⟨e', hloop⟩ :=
    mapM_loop_error (renderFileBlock reader) files [] f hf e
      (renderFileBlock_error reader f e he)
  refine ⟨e', ?_⟩
  unfold generateMarkdown
  have hmm : files.mapM (renderFileBlock reader) = Except.error e' := hloop
  rw [hmm]
  rfl

theorem foldlM_cons_except {α β : Type}
    (g : β → α → Except String β) (init : β) (x : α) (xs : List α) :
    List.foldlM g init (x :: xs) = g init x >>= fun a => List.foldlM g a xs := by
  simp [List.foldlM]

/-- Claim C5 (amended): a failure to read one resolved file is fatal, not
per-file: it rejects the `Promise.all` in `generateMarkdown` and propagates
to the top-level `main().catch`, which exits non-zero, so the whole run
fails; processing does not continue. -/
theorem file_read_error_fatal
    (m : List Char → List Char → Bool) (fs : List FSEntry)
    (reader : List Char → Except String (List Char))
    (name : List Char) (pats : List (List Char))
    (rest : List (List Char × List (List Char))) (f : List Char) (e : String)
    (hf : f ∈ getMatchingFiles m fs (pats.filter (fun p => !leadEq (("-").toList) p))
      ((pats.filter (fun p => leadEq (("-").toList) p)).map (fun p => p.drop 1)))
    (he : reader f = Except.error e) :
    ∃ e', mainRun m fs reader (some ((name, pats) :: rest)) = Except.error e' := by
  obtain ⟨e', hgm⟩ := generateMarkdown_error reader _ f hf e he
  refine ⟨e', ?_⟩
  have hlen : 0 < (getMatchingFiles m fs
      (pats.filter (fun p => !leadEq (("-").toList) p))
      ((pats.filter (fun p => leadEq (("-").toList) p)).map (fun p => p.drop 1))).length :=
    List.length_pos.mpr (List.ne_nil_of_mem hf)
  have hstep : processOneSection m fs reader [] (name, pats) = Except.error e' := by
    unfold processOneSection
    simp only [gt_iff_lt, hlen, if_true]
    rw [hgm]
    rfl
  show List.foldlM (processOneSection m fs reader) [] ((name, pats) :: rest) = Except.error e'
  rw [foldlM_cons_except, hstep]
  rfl

/-- Claim C5 counterexample: with the configuration present and a single
resolved file whose read fails, the whole run returns the error (the source
exits with status 1 from `main().catch`); the failure is not contained to
the file, so the missing-configuration condition is not the only whole-run
abort. -/
theorem file_read_error_aborts_run :
    mainRun mC5 fsC5 readerC5 cfgC5 = Except.error ("boom") ∧ cfgC5 ≠ none :=
  ⟨rfl, fun h => Option.noConfusion h⟩

/-- Witness for C5's amended theorem at a concrete input. -/
theorem file_read_error_fatal_wit :
    ∃ e', mainRun mC5 fsC5 readerC5 (some [((("main").toList), [("a.js").toList])]) =
      Except.error e' :=
  file_read_error_fatal mC5 fsC5 readerC5 (("main").toList) [("a.js").toList] []
    (("a.js").toList) ("boom") (by decide) rfl

/-! ### Claims C9 and C10: config parsing -/

theorem lookup_setAssoc_self (cfg : List (List Char × List (List Char))) (name : List Char) :
    lookupA (setAssoc cfg name) name = some [] := by
  induction cfg with
  | nil => simp [setAssoc, lookupA]
  | cons kv rest ih =>
    obtain ⟨k, v⟩ := kv
    by_cases hk : k = name
    · simp [setAssoc, hk, lookupA]
    · simp [setAssoc, hk, lookupA, ih]

theorem lookup_setAssoc_ne (cfg : List (List Char × List (List Char)))
    (name other : List Char) (h : other ≠ name) :
    lookupA (setAssoc cfg name) other = lookupA cfg other := by
  induction cfg with
  | nil =>
    have hno : ¬name = other := fun hh => h hh.symm
    simp [setAssoc, lookupA, hno]
  | cons kv rest ih =>
    obtain ⟨k, v⟩ := kv
    by_cases hk : k = name
    · subst hk
      have hno : ¬k = other := fun hh => h hh.symm
      simp [setAssoc, lookupA, hno]
    · simp [setAssoc, hk, lookupA, ih]

theorem lookup_pushAssoc_self (cfg : List (List Char × List (List Char)))
    (name line : List Char) (v : List (List Char)) (hv : lookupA cfg name = some v) :
    lookupA (pushAssoc cfg name line) name = some (v ++ [line]) := by
  induction cfg with
  | nil => simp [lookupA] at hv
  | cons kv rest ih =>
    obtain ⟨k, v'⟩ := kv
    by_cases hk : k = name
    · subst hk
      simp [lookupA] at hv
      simp [pushAssoc, lookupA, hv]
    · simp [lookupA, hk] at hv
      simp [pushAssoc, lookupA, hk, ih hv]

theorem lookup_pushAssoc_ne (cfg : List (List Char × List (List Char)))
    (name other line : List Char) (h : other ≠ name) :
    lookupA (pushAssoc cfg name line) other = lookupA cfg other := by
  induction cfg with
  | nil => simp [pushAssoc, lookupA]
  | cons kv rest ih =>
    obtain ⟨k, v⟩ := kv
    by_cases hk : k = name
    · subst hk
      have hno : ¬k = other := fun hh => h hh.symm
      simp [pushAssoc, lookupA, hno]
    · simp [pushAssoc, hk, lookupA, ih]

theorem parseLine_header (st : ParseState) (rawLine : List Char)
    (hhdr : isHeaderL (trimL rawLine) = true) :
    parseLine st rawLine =
      ParseState.mk (setAssoc st.config (headerNameL (trimL rawLine)))
        (some (headerNameL (trimL rawLine))) := by
  simp [parseLine, hhdr]

theorem parseLine_not_header_empty_name (st : ParseState) (rawLine : List Char)
    (hhdr : isHeaderL (trimL rawLine) = false) (hcur : st.current = some []) :
    parseLine st rawLine = st := by
  simp [parseLine, hhdr, hcur]

theorem parseLine_not_header_none (st : ParseState) (rawLine : List Char)
    (hhdr : isHeaderL (trimL rawLine) = false) (hcur : st.current = none) :
    parseLine st rawLine = st := by
  simp [parseLine, hhdr, hcur]

theorem parse_discard (body : List (List Char)) (cfg : List (List Char × List (List Char)))
    (hbody : ∀ l ∈ body, isHeaderL (trimL l) = false) :
    body.foldl parseLine (ParseState.mk cfg (some [])) = ParseState.mk cfg (some []) := by
  induction body with
  | nil => rfl
  | cons x xs ih =>
    rw [List.foldl_cons,
      parseLine_not_header_empty_name _ _ (hbody x (List.mem_cons_self _ _)) rfl]
    exact ih (fun l hl => hbody l (List.mem_cons_of_mem _ hl))

theorem parse_accum (body : List (List Char)) (cfg : List (List Char × List (List Char)))
    (name : List Char) (v : List (List Char))
    (hne : name ≠ []) (hv : lookupA cfg name = some v)
    (hbody : ∀ l ∈ body, isHeaderL (trimL l) = false) :
    lookupA ((body.foldl parseLine (ParseState.mk cfg (some name))).config) name =
      some (v ++ (body.map trimL).filter (fun l => !l.isEmpty)) := by
  induction body generalizing cfg v with
  | nil => simpa using hv
  | cons x xs ih =>
    rw [List.foldl_cons]
    have hx := hbody x (List.mem_cons_self _ _)
    have hxs := fun l hl => hbody l (List.mem_cons_of_mem _ hl)
    have hnm : (!name.isEmpty) = true := by
      cases name with
      | nil => exact absurd rfl hne
      | cons a b => rfl
    by_cases hemp : (trimL x).isEmpty = true
    · have hstep : parseLine (ParseState.mk cfg (some name)) x =
          ParseState.mk cfg (some name) := by
        simp [parseLine, hx, hnm, hemp]
      rw [hstep, ih cfg v hv hxs]
      simp [List.filter_cons, hemp]
    · have hstep : parseLine (ParseState.mk cfg (some name)) x =
          ParseState.mk (pushAssoc cfg name (trimL x)) (some name) := by
        simp [parseLine, hx, hnm, hemp]
      rw [hstep,
        ih (pushAssoc cfg name (trimL x)) (v ++ [trimL x])
          (lookup_pushAssoc_self cfg name (trimL x) v hv) hxs]
      simp [List.filter_cons, hemp]

/-- Claim C9 (amended): a trimmed line of the form `[name]` opens section
`name`; a repeated header clears prior accumulation for that name (last
occurrence wins); every non-blank non-header line accumulates, in order,
under the currently open section provided its name is non-empty (a section
opened by `[]` discards its lines — see C10); blank lines and lines before
any section header are ignored. -/
theorem readConfig_accumulation
    (pre body : List (List Char)) (hl name : List Char)
    (hhdr : isHeaderL (trimL hl) = true)
    (hname : headerNameL (trimL hl) = name)
    (hne : name ≠ [])
    (hbody : ∀ l ∈ body, isHeaderL (trimL l) = false) :
    lookupA (parseLines (pre ++ [hl] ++ body)).config name =
      some ((body.map trimL).filter (fun l => !l.isEmpty)) ∧
    (∀ ls : List (List Char), (∀ l ∈ ls, isHeaderL (trimL l) = false) →
      parseLines ls = ParseState.mk [] none) := by
  constructor
  · unfold parseLines
    rw [List.foldl_append, List.foldl_append, List.foldl_cons, List.foldl_nil,
      parseLine_header _ _ hhdr, hname]
    exact parse_accum body _ name [] hne (lookup_setAssoc_self _ name) hbody
  · intro ls hls
    unfold parseLines
    induction ls with
    | nil => rfl
    | cons x xs ih =>
      rw [List.foldl_cons,
        parseLine_not_header_none _ _ (hls x (List.mem_cons_self _ _)) rfl]
      exact ih (fun l hl => hls l (List.mem_cons_of_mem _ hl))

/-- Claim C9 counterexample: for the text `[]\nfoo`, the header `[]` opens the
empty-named section, `foo` is a non-blank line while that section is open,
yet it is accumulated nowhere — the parse result is exactly one empty
section. -/
theorem empty_header_swallows_lines :
    readConfig (("[]\nfoo").toList) = [([], [])] ∧
    lookupA (readConfig (("[]\nfoo").toList)) [] = some [] ∧
    (∀ entry ∈ readConfig (("[]\nfoo").toList), ("foo").toList ∉ entry.2) := by decide

/-- Witness for C9's amended theorem at a concrete input. -/
theorem readConfig_accumulation_wit :
    lookupA (parseLines ([("x").toList] ++ [("[sec]").toList] ++
        [("  p1  ").toList, ("").toList, ("p2").toList])).config (("sec").toList) =
      some (([("  p1  ").toList, ("").toList, ("p2").toList].map trimL).filter
        (fun l => !l.isEmpty)) ∧
    (∀ ls : List (List Char), (∀ l ∈ ls, isHeaderL (trimL l) = false) →
      parseLines ls = ParseState.mk [] none) :=
  readConfig_accumulation [("x").toList] [("  p1  ").toList, ("").toList, ("p2").toList]
    (("[sec]").toList) (("sec").toList)
    (by decide) (by decide) (by decide) (by decide)

theorem lookup_empty_step (st : ParseState) (x : List Char)
    (hst : lookupA st.config [] = none ∨ lookupA st.config [] = some []) :
    lookupA (parseLine st x).config [] = none ∨
      lookupA (parseLine st x).config [] = some [] := by
  by_cases hh : isHeaderL (trimL x) = true
  · rw [parseLine_header st x hh]
    by_cases hn : headerNameL (trimL x) = []
    · rw [hn]
      exact Or.inr (lookup_setAssoc_self st.config [])
    · rw [lookup_setAssoc_ne st.config _ [] (fun h => hn h.symm)]
      exact hst
  · have hh' : isHeaderL (trimL x) = false := by
      cases h : isHeaderL (trimL x)
      · rfl
      · exact absurd h hh
    cases hcur : st.current with
    | none => rw [parseLine_not_header_none st x hh' hcur]; exact hst
    | some name =>
      cases name with
      | nil => rw [parseLine_not_header_empty_name st x hh' hcur]; exact hst
      | cons a b =>
        by_cases hemp : (trimL x).isEmpty = true
        · have hstep : parseLine st x = st := by
            simp [parseLine, hh', hcur, hemp]
          rw [hstep]
          exact hst
        · have hstep : parseLine st x =
              ParseState.mk (pushAssoc st.config (a :: b) (trimL x)) st.current := by
            simp [parseLine, hh', hcur, hemp]
          rw [hstep]
          show lookupA (pushAssoc st.config (a :: b) (trimL x)) [] = none ∨
            lookupA (pushAssoc st.config (a :: b) (trimL x)) [] = some []
          rw [lookup_pushAssoc_ne st.config (a :: b) [] (trimL x) (by simp)]
          exact hst

/-- Claim C10: a header line consisting of exactly `[]` opens a section with
empty name and empty pattern list; every subsequent non-header line up to
the next header is silently discarded (the accumulation guard rejects the
empty name), so an empty-named section always resolves with zero patterns in
any parsed configuration. -/
theorem empty_section_zero_patterns
    (pre body : List (List Char)) (text : List Char)
    (hbody : ∀ l ∈ body, isHeaderL (trimL l) = false) :
    parseLines (pre ++ [("[]").toList] ++ body) = parseLines (pre ++ [("[]").toList]) ∧
    lookupA (parseLines (pre ++ [("[]").toList])).config [] = some [] ∧
    (lookupA (readConfig text) [] = none ∨ lookupA (readConfig text) [] = some []) := by
  have hhdr : isHeaderL (trimL (("[]").toList)) = true := by decide
  have hname : headerNameL (trimL (("[]").toList)) = [] := by decide
  have hsplit : parseLines (pre ++ [("[]").toList]) =
      ParseState.mk (setAssoc (parseLines pre).config []) (some []) := by
    unfold parseLines
    rw [List.foldl_append, List.foldl_cons, List.foldl_nil, parseLine_header _ _ hhdr, hname]
  refine ⟨?_, ?_, ?_⟩
  · have hassoc : parseLines (pre ++ [("[]").toList] ++ body) =
        body.foldl parseLine (parseLines (pre ++ [("[]").toList])) := by
      unfold parseLines
      rw [List.foldl_append]
    rw [hassoc, hsplit, parse_discard body _ hbody]
  · rw [hsplit]
    exact lookup_setAssoc_self _ []
  · unfold readConfig
    generalize splitNlL text = ls
    have : ∀ (ls : List (List Char)) (st : ParseState),
        (lookupA st.config [] = none ∨ lookupA st.config [] = some []) →
        lookupA (ls.foldl parseLine st).config [] = none ∨
          lookupA (ls.foldl parseLine st).config [] = some [] := by
      intro ls
      induction ls with
      | nil => intro st hst; exact hst
      | cons x xs ih =>
        intro st hst
        rw [List.foldl_cons]
        exact ih _ (lookup_empty_step st x hst)
    exact this ls (ParseState.mk [] none) (Or.inl rfl)

/-! ### Claim C7: idempotence of the Content Normalizer -/

theorem dropWhile_dropWhile (p : Char → Bool) (l : List Char) :
    (l.dropWhile p).dropWhile p = l.dropWhile p := by
  induction l with
  | nil => rfl
  | cons c t ih =>
    by_cases hc : p c = true
    · simp [List.dropWhile_cons, hc, ih]
    · simp [List.dropWhile_cons, hc]

theorem dropWhile_eq_self_of_head (p : Char → Bool) (l : List Char)
    (h : ∀ c, l.head? = some c → p c = false) : l.dropWhile p = l := by
  cases l with
  | nil => rfl
  | cons c t => simp [List.dropWhile_cons, h c rfl]

theorem head?_dropWhile_false (p : Char → Bool) (l : List Char) (x : Char)
    (h : (l.dropWhile p).head? = some x) : p x = false := by
  have := List.head?_dropWhile_not p l
  rw [h] at this
  simpa using this

theorem mem_of_getLast?_eq {l : List Char} {a : Char} (h : l.getLast? = some a) : a ∈ l := by
  obtain ⟨hne, heq⟩ := List.mem_getLast?_eq_getLast (show a ∈ l.getLast? by simp [h])
  rw [heq]
  exact List.getLast_mem hne

theorem getLast?_cons_of_ne (a : Char) (l : List Char) (h : l ≠ []) :
    (a :: l).getLast? = l.getLast? := by
  cases l with
  | nil => exact absurd rfl h
  | cons b t => exact List.getLast?_cons_cons

theorem getLast?_append_right (l1 l2 : List Char) (h : l2 ≠ []) :
    (l1 ++ l2).getLast? = l2.getLast? := List.getLast?_append_of_ne_nil l1 h

theorem trimEndL_idem (l : List Char) : trimEndL (trimEndL l) = trimEndL l := by
  unfold trimEndL
  rw [List.reverse_reverse, dropWhile_dropWhile]

theorem mem_trimEndL_sub {l : List Char} {a : Char} (h : a ∈ trimEndL l) : a ∈ l := by
  unfold trimEndL at h
  rw [List.mem_reverse] at h
  have := (List.dropWhile_sublist (l := l.reverse) (p := isWSChar)).subset h
  rwa [List.mem_reverse] at this

theorem splitNlL_ne_nil (l : List Char) : splitNlL l ≠ [] := by
  cases l with
  | nil => simp [splitNlL]
  | cons c rest =>
    by_cases hc : c == '\n'
    · simp [splitNlL, hc]
    · simp only [splitNlL, hc, Bool.false_eq_true, if_false]
      cases splitNlL rest <;> simp

theorem mem_splitNlL_no_nl : ∀ (l : List Char) (piece : List Char),
    piece ∈ splitNlL l → '\n' ∉ piece := by
  intro l
  induction l with
  | nil =>
    intro piece hp
    simp [splitNlL] at hp
    simp [hp]
  | cons c rest ih =>
    intro piece hp
    by_cases hc : c == '\n'
    · simp only [splitNlL, hc, if_true, List.mem_cons] at hp
      rcases hp with rfl | hp
      · simp
      · exact ih piece hp
    · simp only [splitNlL, hc, Bool.false_eq_true, if_false] at hp
      cases hsp : splitNlL rest with
      | nil => exact absurd hsp (splitNlL_ne_nil rest)
      | cons h t =>
        rw [hsp, List.mem_cons] at hp
        have hcnl : ¬c = '\n' := by simpa using hc
        rcases hp with rfl | hp
        · intro hmem
          rcases List.mem_cons.mp hmem with heq | hmem'
          · exact hcnl heq.symm
          · exact ih h (by rw [hsp]; exact List.mem_cons_self _ _) hmem'
        · exact ih piece (by rw [hsp]; exact List.mem_cons_of_mem _ hp)

theorem splitNlL_no_nl_single (l : List Char) (h : '\n' ∉ l) : splitNlL l = [l] := by
  induction l with
  | nil => rfl
  | cons c rest ih =>
    have hc : ¬c == '\n' := by
      simp only [beq_iff_eq]
      intro hcc
      exact h (hcc ▸ List.mem_cons_self _ _)
    have hrest : '\n' ∉ rest := fun hm => h (List.mem_cons_of_mem _ hm)
    simp only [splitNlL, hc, Bool.false_eq_true, if_false, ih hrest]

theorem splitNlL_append_cons (x r : List Char) (h : '\n' ∉ x) :
    splitNlL (x ++ '\n' :: r) = x :: splitNlL r := by
  induction x with
  | nil => simp [splitNlL]
  | cons c x' ih =>
    have hc : ¬c == '\n' := by
      simp only [beq_iff_eq]
      intro hcc
      exact h (hcc ▸ List.mem_cons_self _ _)
    have hx' : '\n' ∉ x' := fun hm => h (List.mem_cons_of_mem _ hm)
    show splitNlL (c :: (x' ++ '\n' :: r)) = (c :: x') :: splitNlL r
    simp only [splitNlL, hc, Bool.false_eq_true, if_false]
    rw [ih hx']

theorem splitNl_joinNl (L : List (List Char)) (hL : L ≠ [])
    (hn : ∀ piece ∈ L, '\n' ∉ piece) : splitNlL (joinSep '\n' L) = L := by
  induction L with
  | nil => exact absurd rfl hL
  | cons x t ih =>
    cases t with
    | nil => exact splitNlL_no_nl_single x (hn x (List.mem_cons_self _ _))
    | cons y t' =>
      show splitNlL (x ++ '\n' :: joinSep '\n' (y :: t')) = x :: (y :: t')
      rw [splitNlL_append_cons x _ (hn x (List.mem_cons_self _ _)),
        ih (by simp) (fun piece hp => hn piece (List.mem_cons_of_mem _ hp))]

theorem map_id_of {α : Type} (f : α → α) (l : List α) (h : ∀ x ∈ l, f x = x) :
    l.map f = l :=
  (List.map_congr_left h).trans (List.map_id l)

theorem filter_eq_self_of {α : Type} (p : α → Bool) (l : List α)
    (h : ∀ x ∈ l, p x = true) : l.filter p = l :=
  List.filter_eq_self.mpr h

theorem removeWhitespace_sensitive_idem (c : List Char) :
    removeWhitespace (removeWhitespace c true) true = removeWhitespace c true := by
  have hdef : removeWhitespace c true =
      joinSep '\n' (((splitNlL c).map trimEndL).filter (fun line => !(trimL line).isEmpty)) := rfl
  set L := ((splitNlL c).map trimEndL).filter (fun line => !(trimL line).isEmpty) with hLdef
  have hL1 : ∀ l ∈ L, '\n' ∉ l := by
    intro l hl
    have hl' := List.mem_filter.mp hl
    obtain ⟨l0, hl0, rfl⟩ := List.mem_map.mp hl'.1
    intro hmem
    exact mem_splitNlL_no_nl c l0 hl0 (mem_trimEndL_sub hmem)
  have hL2 : ∀ l ∈ L, trimEndL l = l := by
    intro l hl
    have hl' := List.mem_filter.mp hl
    obtain ⟨l0, _, rfl⟩ := List.mem_map.mp hl'.1
    exact trimEndL_idem l0
  have hL3 : ∀ l ∈ L, (!(trimL l).isEmpty) = true := fun l hl => (List.mem_filter.mp hl).2
  by_cases hL : L = []
  · rw [hdef, hL]
    rfl
  · rw [hdef]
    show removeWhitespace (joinSep '\n' L) true = joinSep '\n' L
    have : removeWhitespace (joinSep '\n' L) true =
        joinSep '\n' (((splitNlL (joinSep '\n' L)).map trimEndL).filter
          (fun line => !(trimL line).isEmpty)) := rfl
    rw [this, splitNl_joinNl L hL hL1, map_id_of trimEndL L hL2,
      filter_eq_self_of _ L hL3]

theorem br_not_ws (c : Char) (h : isBracketChar c = true) : isWSChar c = false := by
  simp only [isBracketChar, Bool.or_eq_true, beq_iff_eq] at h
  rcases h with ((((rfl | rfl) | rfl) | rfl) | rfl) | rfl <;> decide

theorem ws_not_br (c : Char) (h : isWSChar c = true) : isBracketChar c = false := by
  cases hb : isBracketChar c
  · rfl
  · rw [br_not_ws c hb] at h
    exact Bool.noConfusion h

theorem collapseGo_fix (l : List Char) (hall : allSpace l) (hww : List.Chain' wwOK l) :
    collapseGo false l = l ∧ (headNW l → collapseGo true l = l) := by
  induction l with
  | nil => exact ⟨rfl, fun _ => rfl⟩
  | cons c rest ih =>
    have hpair := (List.chain'_cons'.mp hww).1
    have htail := (List.chain'_cons'.mp hww).2
    have halltail : allSpace rest := fun x hx hwx => hall x (List.mem_cons_of_mem _ hx) hwx
    obtain ⟨ih1, ih2⟩ := ih halltail htail
    have harm1 : collapseGo false (c :: rest) = c :: rest := by
      by_cases hwc : isWSChar c = true
      · have hc' : c = ' ' := hall c (List.mem_cons_self _ _) hwc
        have hhr : headNW rest := by
          intro e he
          cases hwe : isWSChar e
          · rfl
          · exact absurd ⟨hwc, hwe⟩ (hpair e he)
        simp only [collapseGo, hwc, if_true, Bool.false_eq_true, if_false]
        rw [ih2 hhr, hc']
      · have hwc' : isWSChar c = false := by simpa using hwc
        simp only [collapseGo, hwc', Bool.false_eq_true, if_false]
        rw [ih1]
    refine ⟨harm1, fun hh => ?_⟩
    have hwc : isWSChar c = false := hh c rfl
    simp only [collapseGo, hwc, Bool.false_eq_true, if_false]
    rw [ih1]

theorem brGo_true_eq_false_of_head (l : List Char) (hh : headNW l) :
    brGo true [] l = brGo false [] l := by
  cases l with
  | nil => rfl
  | cons c rest =>
    have hwc : isWSChar c = false := hh c rfl
    simp only [brGo, hwc, Bool.false_eq_true, if_false]

theorem brGo_fix (l : List Char) (hww : List.Chain' wwOK l) (hwb : List.Chain' wbOK l) :
    brGo false [] l = l := by
  induction l with
  | nil => rfl
  | cons c rest ih =>
    obtain ⟨hpw, htw⟩ := List.chain'_cons'.mp hww
    obtain ⟨hpb, htb⟩ := List.chain'_cons'.mp hwb
    by_cases hwc : isWSChar c = true
    · cases rest with
      | nil => simp [brGo, hwc]
      | cons d r =>
        have hwd : isWSChar d = false := by
          cases h' : isWSChar d
          · rfl
          · exact absurd ⟨hwc, h'⟩ (hpw d rfl)
        have hbd : isBracketChar d = false := by
          cases h' : isBracketChar d
          · rfl
          · exact absurd ⟨hwc, h'⟩ (hpb d rfl).1
        have hrest : brGo false [] (d :: r) = d :: r := ih htw htb
        have hdr : brGo false [] (d :: r) = d :: brGo false [] r := by
          simp [brGo, hwd, hbd]
        rw [hdr] at hrest
        have hr : brGo false [] r = r := by injection hrest
        show brGo false [] (c :: d :: r) = c :: d :: r
        simp [brGo, hwc, hwd, hbd, hr]
    · have hwc' : isWSChar c = false := by simpa using hwc
      by_cases hbc : isBracketChar c = true
      · have hhr : headNW rest := by
          intro e he
          cases hwe : isWSChar e
          · rfl
          · exact absurd ⟨hbc, hwe⟩ (hpb e he).2
        show brGo false [] (c :: rest) = c :: rest
        simp only [brGo, hwc', Bool.false_eq_true, if_false, hbc, if_true]
        rw [brGo_true_eq_false_of_head rest hhr, ih htw htb]
      · have hbc' : isBracketChar c = false := by simpa using hbc
        show brGo false [] (c :: rest) = c :: rest
        simp only [brGo, hwc', hbc', Bool.false_eq_true, if_false]
        rw [ih htw htb]
        rfl

theorem dropAfterGo_true_eq_false_of_head (t : Char) (l : List Char) (hh : headNW l) :
    dropAfterGo t true l = dropAfterGo t false l := by
  cases l with
  | nil => rfl
  | cons c rest =>
    have hwc : isWSChar c = false := hh c rfl
    simp only [dropAfterGo, hwc, Bool.and_false, Bool.false_and, Bool.false_eq_true, if_false]

theorem dropAfterGo_fix (t : Char) (l : List Char) (ht : List.Chain' (twOK t) l) :
    dropAfterGo t false l = l := by
  induction l with
  | nil => rfl
  | cons c rest ih =>
    obtain ⟨hpt, htt⟩ := List.chain'_cons'.mp ht
    by_cases hct : (c == t) = true
    · have hceq : c = t := by simpa using hct
      have hhr : headNW rest := by
        intro e he
        cases hwe : isWSChar e
        · rfl
        · exact absurd ⟨hceq, hwe⟩ (hpt e he)
      show dropAfterGo t false (c :: rest) = c :: rest
      simp only [dropAfterGo, Bool.false_and, Bool.false_eq_true, if_false, hct, if_true]
      rw [dropAfterGo_true_eq_false_of_head t rest hhr, ih htt]
    · have hct' : (c == t) = false := by simpa using hct
      show dropAfterGo t false (c :: rest) = c :: rest
      simp only [dropAfterGo, Bool.false_and, Bool.false_eq_true, if_false, hct']
      rw [ih htt]

theorem no_nl_of_allSpace (l : List Char) (h : allSpace l) : '\n' ∉ l := by
  intro hm
  have := h '\n' hm (by decide)
  exact absurd this (by decide)

theorem head?_append_left (l1 l2 : List Char) (h : l1 ≠ []) :
    (l1 ++ l2).head? = l1.head? := by
  cases l1 with
  | nil => exact absurd rfl h
  | cons a t => rfl

theorem lastNW_dropWhile (p : Char → Bool) (l : List Char) (h : lastNW l) :
    lastNW (l.dropWhile p) := by
  intro c hc
  have hsplit := List.takeWhile_append_dropWhile p l
  have hne : l.dropWhile p ≠ [] := by
    intro hnil
    rw [hnil] at hc
    exact Option.noConfusion hc
  apply h c
  rw [← hsplit, getLast?_append_right _ _ hne]
  exact hc

theorem trimEndL_lastNW (l : List Char) : lastNW (trimEndL l) := by
  intro c hc
  unfold trimEndL at hc
  rw [List.getLast?_reverse] at hc
  exact head?_dropWhile_false isWSChar l.reverse c hc

theorem trimL_lastNW (l : List Char) : lastNW (trimL l) :=
  lastNW_dropWhile isWSChar (trimEndL l) (trimEndL_lastNW l)

theorem trimL_headNW (l : List Char) : headNW (trimL l) := by
  intro c hc
  exact head?_dropWhile_false isWSChar (trimEndL l) c hc

theorem joinSep_headNW (sep : Char) (L : List (List Char))
    (hne : ∀ x ∈ L, x ≠ []) (hh : ∀ x ∈ L, headNW x) : headNW (joinSep sep L) := by
  cases L with
  | nil => intro c hc; exact Option.noConfusion hc
  | cons x t =>
    cases t with
    | nil => exact hh x (List.mem_cons_self _ _)
    | cons y t' =>
      intro c hc
      show isWSChar c = false
      apply hh x (List.mem_cons_self _ _) c
      rw [← head?_append_left x (sep :: joinSep sep (y :: t')) (hne x (List.mem_cons_self _ _))]
      exact hc

theorem joinSep_ne_nil (sep : Char) (L : List (List Char)) (hL : L ≠ [])
    (hne : ∀ x ∈ L, x ≠ []) : joinSep sep L ≠ [] := by
  cases L with
  | nil => exact absurd rfl hL
  | cons x t =>
    cases t with
    | nil => exact hne x (List.mem_cons_self _ _)
    | cons y t' =>
      show x ++ sep :: joinSep sep (y :: t') ≠ []
      simp

theorem joinSep_lastNW (sep : Char) (L : List (List Char))
    (hne : ∀ x ∈ L, x ≠ []) (hl : ∀ x ∈ L, lastNW x) : lastNW (joinSep sep L) := by
  induction L with
  | nil => intro c hc; exact Option.noConfusion hc
  | cons x t ih =>
    cases t with
    | nil => exact hl x (List.mem_cons_self _ _)
    | cons y t' =>
      intro c hc
      have hjoin_ne : joinSep sep (y :: t') ≠ [] :=
        joinSep_ne_nil sep (y :: t') (by simp) (fun z hz => hne z (List.mem_cons_of_mem _ hz))
      have hch : (x ++ sep :: joinSep sep (y :: t')).getLast? =
          (joinSep sep (y :: t')).getLast? := by
        rw [getLast?_append_right _ _ (by simp), getLast?_cons_of_ne _ _ hjoin_ne]
      apply ih (fun z hz => hne z (List.mem_cons_of_mem _ hz))
        (fun z hz => hl z (List.mem_cons_of_mem _ hz)) c
      rw [← hch]
      exact hc

theorem collapseGo_allSpace (l : List Char) : ∀ b, allSpace (collapseGo b l) := by
  induction l with
  | nil => intro b c hc; exact absurd hc (List.not_mem_nil c)
  | cons c rest ih =>
    intro b x hx hwx
    by_cases hwc : isWSChar c = true
    · cases b with
      | true =>
        rw [show collapseGo true (c :: rest) = collapseGo true rest by simp [collapseGo, hwc]] at hx
        exact ih true x hx hwx
      | false =>
        rw [show collapseGo false (c :: rest) = ' ' :: collapseGo true rest by
          simp [collapseGo, hwc]] at hx
        rcases List.mem_cons.mp hx with rfl | hx'
        · rfl
        · exact ih true x hx' hwx
    · have hwc' : isWSChar c = false := by simpa using hwc
      rw [show collapseGo b (c :: rest) = c :: collapseGo false rest by
        simp [collapseGo, hwc']] at hx
      rcases List.mem_cons.mp hx with rfl | hx'
      · rw [hwc'] at hwx
        exact Bool.noConfusion hwx
      · exact ih false x hx' hwx

theorem collapseGo_true_headNW (l : List Char) : headNW (collapseGo true l) := by
  induction l with
  | nil => intro c hc; exact Option.noConfusion hc
  | cons c rest ih =>
    by_cases hwc : isWSChar c = true
    · rw [show collapseGo true (c :: rest) = collapseGo true rest by simp [collapseGo, hwc]]
      exact ih
    · have hwc' : isWSChar c = false := by simpa using hwc
      rw [show collapseGo true (c :: rest) = c :: collapseGo false rest by
        simp [collapseGo, hwc']]
      intro x hx
      rw [show x = c by simpa using hx.symm]
      exact hwc'

theorem collapseGo_wwOK (l : List Char) : ∀ b, List.Chain' wwOK (collapseGo b l) := by
  induction l with
  | nil => intro b; exact List.chain'_nil
  | cons c rest ih =>
    intro b
    by_cases hwc : isWSChar c = true
    · cases b with
      | true =>
        rw [show collapseGo true (c :: rest) = collapseGo true rest by simp [collapseGo, hwc]]
        exact ih true
      | false =>
        rw [show collapseGo false (c :: rest) = ' ' :: collapseGo true rest by
          simp [collapseGo, hwc]]
        refine List.chain'_cons'.mpr ⟨?_, ih true⟩
        intro y hy
        intro hcon
        rw [collapseGo_true_headNW rest y hy] at hcon
        exact Bool.noConfusion hcon.2
    · have hwc' : isWSChar c = false := by simpa using hwc
      rw [show collapseGo b (c :: rest) = c :: collapseGo false rest by
        simp [collapseGo, hwc']]
      refine List.chain'_cons'.mpr ⟨?_, ih false⟩
      intro y _ hcon
      rw [hwc'] at hcon
      exact Bool.noConfusion hcon.1

theorem collapseGo_headNW (l : List Char) (hh : headNW l) : headNW (collapseGo false l) := by
  cases l with
  | nil => intro c hc; exact Option.noConfusion hc
  | cons c rest =>
    have hwc : isWSChar c = false := hh c rfl
    rw [show collapseGo false (c :: rest) = c :: collapseGo false rest by
      simp [collapseGo, hwc]]
    intro x hx
    rw [show x = c by simpa using hx.symm]
    exact hwc

theorem collapseGo_ne_nil (l : List Char) :
    ∀ b, (∃ c ∈ l, isWSChar c = false) → collapseGo b l ≠ [] := by
  induction l with
  | nil =>
    rintro b ⟨c, hc, _⟩
    exact absurd hc (List.not_mem_nil c)
  | cons c rest ih =>
    rintro b ⟨d, hd, hnd⟩
    by_cases hwc : isWSChar c = true
    · have hdrest : d ∈ rest := by
        rcases List.mem_cons.mp hd with rfl | h'
        · rw [hwc] at hnd
          exact Bool.noConfusion hnd
        · exact h'
      cases b with
      | true =>
        rw [show collapseGo true (c :: rest) = collapseGo true rest by simp [collapseGo, hwc]]
        exact ih true ⟨d, hdrest, hnd⟩
      | false =>
        rw [show collapseGo false (c :: rest) = ' ' :: collapseGo true rest by
          simp [collapseGo, hwc]]
        simp
    · have hwc' : isWSChar c = false := by simpa using hwc
      rw [show collapseGo b (c :: rest) = c :: collapseGo false rest by
        simp [collapseGo, hwc']]
      simp

theorem collapseGo_lastNW (l : List Char) (hl : lastNW l) :
    ∀ b, lastNW (collapseGo b l) := by
  induction l with
  | nil => intro b c hc; exact Option.noConfusion hc
  | cons c rest ih =>
    intro b
    cases rest with
    | nil =>
      have hwc : isWSChar c = false := hl c rfl
      rw [show collapseGo b [c] = [c] by simp [collapseGo, hwc]]
      intro x hx
      rw [show x = c by simpa using hx.symm]
      exact hwc
    | cons d r =>
      have hlrest : lastNW (d :: r) := by
        intro e he
        apply hl e
        rw [List.getLast?_cons_cons]
        exact he
      have hwit : ∃ e ∈ d :: r, isWSChar e = false := by
        have hne2 : (d :: r).getLast? ≠ none := by cases r <;> simp
        obtain ⟨lc, hlc⟩ := Option.ne_none_iff_exists'.mp hne2
        exact ⟨lc, mem_of_getLast?_eq hlc, hlrest lc hlc⟩
      by_cases hwc : isWSChar c = true
      · cases b with
        | true =>
          rw [show collapseGo true (c :: d :: r) = collapseGo true (d :: r) by
            simp [collapseGo, hwc]]
          exact ih hlrest true
        | false =>
          rw [show collapseGo false (c :: d :: r) = ' ' :: collapseGo true (d :: r) by
            simp [collapseGo, hwc]]
          intro x hx
          rw [getLast?_cons_of_ne _ _ (collapseGo_ne_nil (d :: r) true hwit)] at hx
          exact ih hlrest true x hx
      · have hwc' : isWSChar c = false := by simpa using hwc
        rw [show collapseGo b (c :: d :: r) = c :: collapseGo false (d :: r) by
          simp [collapseGo, hwc']]
        intro x hx
        by_cases hnil : collapseGo false (d :: r) = []
        · rw [hnil] at hx
          rw [show x = c by simpa using hx.symm]
          exact hwc'
        · rw [getLast?_cons_of_ne _ _ hnil] at hx
          exact ih hlrest false x hx

theorem brGo_subset (l : List Char) :
    ∀ pend b x, x ∈ brGo b pend l → x ∈ pend ++ l := by
  induction l with
  | nil =>
    intro pend b x hx
    rw [List.append_nil]
    exact hx
  | cons c rest ih =>
    intro pend b x hx
    by_cases hwc : isWSChar c = true
    · cases b with
      | true =>
        rw [show brGo true pend (c :: rest) = brGo true pend rest by simp [brGo, hwc]] at hx
        rcases List.mem_append.mp (ih pend true x hx) with h | h
        · exact List.mem_append_left _ h
        · exact List.mem_append_right _ (List.mem_cons_of_mem _ h)
      | false =>
        rw [show brGo false pend (c :: rest) = brGo false (pend ++ [c]) rest by
          simp [brGo, hwc]] at hx
        have := ih (pend ++ [c]) false x hx
        rw [List.append_assoc, List.singleton_append] at this
        exact this
    · have hwc' : isWSChar c = false := by simpa using hwc
      by_cases hbc : isBracketChar c = true
      · rw [show brGo b pend (c :: rest) = c :: brGo true [] rest by
          simp [brGo, hwc', hbc]] at hx
        rcases List.mem_cons.mp hx with rfl | hx'
        · exact List.mem_append_right _ (List.mem_cons_self _ _)
        · have := ih [] true x hx'
          rw [List.nil_append] at this
          exact List.mem_append_right _ (List.mem_cons_of_mem _ this)
      · have hbc' : isBracketChar c = false := by simpa using hbc
        rw [show brGo b pend (c :: rest) = pend ++ c :: brGo false [] rest by
          simp [brGo, hwc', hbc']] at hx
        rcases List.mem_append.mp hx with h | h
        · exact List.mem_append_left _ h
        · rcases List.mem_cons.mp h with rfl | h'
          · exact List.mem_append_right _ (List.mem_cons_self _ _)
          · have := ih [] false x h'
            rw [List.nil_append] at this
            exact List.mem_append_right _ (List.mem_cons_of_mem _ this)

theorem brGo_true_headNW (l : List Char) : headNW (brGo true [] l) := by
  induction l with
  | nil => intro c hc; exact Option.noConfusion hc
  | cons c rest ih =>
    by_cases hwc : isWSChar c = true
    · rw [show brGo true [] (c :: rest) = brGo true [] rest by simp [brGo, hwc]]
      exact ih
    · have hwc' : isWSChar c = false := by simpa using hwc
      by_cases hbc : isBracketChar c = true
      · rw [show brGo true [] (c :: rest) = c :: brGo true [] rest by simp [brGo, hwc', hbc]]
        intro x hx
        rw [show x = c by simpa using hx.symm]
        exact hwc'
      · have hbc' : isBracketChar c = false := by simpa using hbc
        rw [show brGo true [] (c :: rest) = c :: brGo false [] rest by
          simp [brGo, hwc', hbc']]
        intro x hx
        rw [show x = c by simpa using hx.symm]
        exact hwc'

theorem brGo_headNW (l : List Char) (hh : headNW l) : headNW (brGo false [] l) := by
  cases l with
  | nil => intro c hc; exact Option.noConfusion hc
  | cons c rest =>
    have hwc : isWSChar c = false := hh c rfl
    by_cases hbc : isBracketChar c = true
    · rw [show brGo false [] (c :: rest) = c :: brGo true [] rest by simp [brGo, hwc, hbc]]
      intro x hx
      rw [show x = c by simpa using hx.symm]
      exact hwc
    · have hbc' : isBracketChar c = false := by simpa using hbc
      rw [show brGo false [] (c :: rest) = c :: brGo false [] rest by
        simp [brGo, hwc, hbc']]
      intro x hx
      rw [show x = c by simpa using hx.symm]
      exact hwc

theorem pend_small (pend : List Char) (l' : List Char)
    (hpw : ∀ w ∈ pend, isWSChar w = true) (hch : List.Chain' wwOK (pend ++ l')) :
    pend = [] ∨ ∃ w, pend = [w] := by
  cases pend with
  | nil => exact Or.inl rfl
  | cons w pw =>
    cases pw with
    | nil => exact Or.inr ⟨w, rfl⟩
    | cons w2 pw2 =>
      exfalso
      have hch2 : List.Chain' wwOK (w :: w2 :: (pw2 ++ l')) := hch
      have hpair := (List.chain'_cons'.mp hch2).1 w2 rfl
      exact hpair ⟨hpw w (by simp), hpw w2 (by simp)⟩

theorem brGo_chain (l : List Char) :
    ∀ pend b, List.Chain' wwOK (pend ++ l) → (∀ w ∈ pend, isWSChar w = true) →
      (b = true → pend = []) →
      List.Chain' (fun a b => wwOK a b ∧ wbOK a b) (brGo b pend l) ∧
        (∀ h, (brGo b pend l).head? = some h →
          ((pend ++ l).head? = some h ∨ isWSChar h = false)) := by
  induction l with
  | nil =>
    intro pend b hch hpw _
    constructor
    · rcases pend_small pend [] hpw hch with rfl | ⟨w, rfl⟩
      · exact List.chain'_nil
      · exact List.chain'_singleton w
    · intro h hh
      left
      rw [List.append_nil]
      exact hh
  | cons c rest ih =>
    intro pend b hch hpw hb
    by_cases hwc : isWSChar c = true
    · cases b with
      | true =>
        have hpe : pend = [] := hb rfl
        subst hpe
        have heq : brGo true [] (c :: rest) = brGo true [] rest := by simp [brGo, hwc]
        have hch2 : List.Chain' wwOK (c :: rest) := hch
        have hch' : List.Chain' wwOK ([] ++ rest) := (List.chain'_cons'.mp hch2).2
        obtain ⟨r1, _⟩ := ih [] true hch' (by simp) (fun _ => rfl)
        refine ⟨by rw [heq]; exact r1, ?_⟩
        intro h hh
        right
        exact brGo_true_headNW (c :: rest) h hh
      | false =>
        rcases pend_small pend (c :: rest) hpw hch with rfl | ⟨w, rfl⟩
        · have heq : brGo false [] (c :: rest) = brGo false [c] rest := by simp [brGo, hwc]
          obtain ⟨r1, r2⟩ := ih [c] false hch (by simp [hwc]) (by simp)
          refine ⟨by rw [heq]; exact r1, ?_⟩
          intro h hh
          rw [heq] at hh
          rcases r2 h hh with hcase | hcase
          · left
            exact hcase
          · right
            exact hcase
        · exfalso
          have hch2 : List.Chain' wwOK (w :: c :: rest) := hch
          have hpair := (List.chain'_cons'.mp hch2).1 c rfl
          exact hpair ⟨hpw w (by simp), hwc⟩
    · have hwc' : isWSChar c = false := by simpa using hwc
      have hchc : List.Chain' wwOK (c :: rest) := by
        rcases List.chain'_append.mp hch with ⟨_, h2, _⟩
        exact h2
      have htailww : List.Chain' wwOK rest := (List.chain'_cons'.mp hchc).2
      by_cases hbc : isBracketChar c = true
      · have heq : brGo b pend (c :: rest) = c :: brGo true [] rest := by
          simp [brGo, hwc', hbc]
        obtain ⟨r1, _⟩ := ih [] true (by simpa using htailww) (by simp) (fun _ => rfl)
        constructor
        · rw [heq]
          refine List.chain'_cons'.mpr ⟨?_, r1⟩
          intro y hy
          have hyn : isWSChar y = false := brGo_true_headNW rest y hy
          constructor
          · intro hcon
            rw [hyn] at hcon
            exact Bool.noConfusion hcon.2
          · constructor
            · intro hcon
              rw [hwc'] at hcon
              exact Bool.noConfusion hcon.1
            · intro hcon
              rw [hyn] at hcon
              exact Bool.noConfusion hcon.2
        · intro h hh
          rw [heq] at hh
          right
          rw [show h = c by simpa using hh.symm]
          exact hwc'
      · have hbc' : isBracketChar c = false := by simpa using hbc
        have heq : brGo b pend (c :: rest) = pend ++ c :: brGo false [] rest := by
          simp [brGo, hwc', hbc']
        obtain ⟨r1, r2⟩ := ih [] false (by simpa using htailww) (by simp) (by simp)
        constructor
        · rw [heq]
          have hchcons : List.Chain' (fun a b => wwOK a b ∧ wbOK a b)
              (c :: brGo false [] rest) := by
            refine List.chain'_cons'.mpr ⟨?_, r1⟩
            intro y _
            refine ⟨?_, ?_, ?_⟩
            · intro hcon
              rw [hwc'] at hcon
              exact Bool.noConfusion hcon.1
            · intro hcon
              rw [hwc'] at hcon
              exact Bool.noConfusion hcon.1
            · intro hcon
              rw [hbc'] at hcon
              exact Bool.noConfusion hcon.1
          rcases pend_small pend (c :: rest) hpw hch with rfl | ⟨w, rfl⟩
          · simpa using hchcons
          · refine List.chain'_append.mpr ⟨List.chain'_singleton w, hchcons, ?_⟩
            intro x hx y hy
            have hxw : w = x := by simpa using hx
            have hyc : c = y := by simpa using hy
            have hww : isWSChar x = true := hxw ▸ hpw w (by simp)
            refine ⟨?_, ?_, ?_⟩
            · intro hcon
              have h2 := hcon.2
              rw [← hyc, hwc'] at h2
              exact Bool.noConfusion h2
            · intro hcon
              have h2 := hcon.2
              rw [← hyc, hbc'] at h2
              exact Bool.noConfusion h2
            · intro hcon
              have h1 := hcon.1
              rw [ws_not_br x hww] at h1
              exact Bool.noConfusion h1
        · intro h hh
          rw [heq] at hh
          left
          cases pend with
          | nil =>
            rw [List.nil_append] at hh ⊢
            rw [show h = c by simpa using hh.symm]
            rfl
          | cons w pw =>
            rw [show ((w :: pw) ++ c :: brGo false [] rest).head? = some w from rfl] at hh
            rw [show h = w by simpa using hh.symm]
            rfl

theorem brGo_last (l : List Char) :
    ∀ pend b, l ≠ [] → lastNW l → (brGo b pend l ≠ [] ∧ lastNW (brGo b pend l)) := by
  induction l with
  | nil => intro pend b h _; exact absurd rfl h
  | cons c rest ih =>
    intro pend b _ hlast
    cases rest with
    | nil =>
      have hwc : isWSChar c = false := hlast c rfl
      by_cases hbc : isBracketChar c = true
      · have heq : brGo b pend [c] = [c] := by simp [brGo, hwc, hbc]
        rw [heq]
        refine ⟨by simp, ?_⟩
        intro x hx
        rw [show x = c by simpa using hx.symm]
        exact hwc
      · have hbc' : isBracketChar c = false := by simpa using hbc
        have heq : brGo b pend [c] = pend ++ [c] := by simp [brGo, hwc, hbc']
        rw [heq]
        refine ⟨by simp, ?_⟩
        intro x hx
        rw [getLast?_append_right pend [c] (by simp)] at hx
        rw [show x = c by simpa using hx.symm]
        exact hwc
    | cons d r =>
      have hlast' : lastNW (d :: r) := by
        intro e he
        apply hlast e
        rw [List.getLast?_cons_cons]
        exact he
      by_cases hwc : isWSChar c = true
      · cases b with
        | true =>
          rw [show brGo true pend (c :: d :: r) = brGo true pend (d :: r) by
            simp [brGo, hwc]]
          exact ih pend true (by simp) hlast'
        | false =>
          rw [show brGo false pend (c :: d :: r) = brGo false (pend ++ [c]) (d :: r) by
            simp [brGo, hwc]]
          exact ih (pend ++ [c]) false (by simp) hlast'
      · have hwc' : isWSChar c = false := by simpa using hwc
        by_cases hbc : isBracketChar c = true
        · rw [show brGo b pend (c :: d :: r) = c :: brGo true [] (d :: r) by
            simp [brGo, hwc', hbc]]
          obtain ⟨hne, hlnw⟩ := ih [] true (by simp) hlast'
          refine ⟨by simp, ?_⟩
          intro x hx
          rw [getLast?_cons_of_ne _ _ hne] at hx
          exact hlnw x hx
        · have hbc' : isBracketChar c = false := by simpa using hbc
          rw [show brGo b pend (c :: d :: r) = pend ++ c :: brGo false [] (d :: r) by
            simp [brGo, hwc', hbc']]
          obtain ⟨hne, hlnw⟩ := ih [] false (by simp) hlast'
          refine ⟨by simp, ?_⟩
          intro x hx
          rw [getLast?_append_right pend _ (by simp),
            getLast?_cons_of_ne _ _ hne] at hx
          exact hlnw x hx

theorem dropAfterGo_subset (t : Char) (l : List Char) :
    ∀ b x, x ∈ dropAfterGo t b l → x ∈ l := by
  induction l with
  | nil => intro b x hx; exact absurd hx (List.not_mem_nil x)
  | cons c rest ih =>
    intro b x hx
    by_cases hskip : (b && isWSChar c) = true
    · rw [show dropAfterGo t b (c :: rest) = dropAfterGo t true rest by
        simp [dropAfterGo, hskip]] at hx
      exact List.mem_cons_of_mem _ (ih true x hx)
    · have hskip' : (b && isWSChar c) = false := by simpa using hskip
      by_cases hct : (c == t) = true
      · rw [show dropAfterGo t b (c :: rest) = c :: dropAfterGo t true rest by
          simp [dropAfterGo, hskip', hct]] at hx
        rcases List.mem_cons.mp hx with rfl | hx'
        · exact List.mem_cons_self _ _
        · exact List.mem_cons_of_mem _ (ih true x hx')
      · have hct' : (c == t) = false := by simpa using hct
        rw [show dropAfterGo t b (c :: rest) = c :: dropAfterGo t false rest by
          simp [dropAfterGo, hskip', hct']] at hx
        rcases List.mem_cons.mp hx with rfl | hx'
        · exact List.mem_cons_self _ _
        · exact List.mem_cons_of_mem _ (ih false x hx')

theorem dropAfterGo_true_headNW (t : Char) (l : List Char) :
    headNW (dropAfterGo t true l) := by
  induction l with
  | nil => intro c hc; exact Option.noConfusion hc
  | cons c rest ih =>
    by_cases hwc : isWSChar c = true
    · rw [show dropAfterGo t true (c :: rest) = dropAfterGo t true rest by
        simp [dropAfterGo, hwc]]
      exact ih
    · have hwc' : isWSChar c = false := by simpa using hwc
      by_cases hct : (c == t) = true
      · rw [show dropAfterGo t true (c :: rest) = c :: dropAfterGo t true rest by
          simp [dropAfterGo, hwc', hct]]
        intro x hx
        rw [show x = c by simpa using hx.symm]
        exact hwc'
      · have hct' : (c == t) = false := by simpa using hct
        rw [show dropAfterGo t true (c :: rest) = c :: dropAfterGo t false rest by
          simp [dropAfterGo, hwc', hct']]
        intro x hx
        rw [show x = c by simpa using hx.symm]
        exact hwc'

theorem dropAfterGo_false_head (t : Char) (l : List Char) :
    (dropAfterGo t false l).head? = l.head? := by
  cases l with
  | nil => rfl
  | cons c rest =>
    by_cases hct : (c == t) = true
    · rw [show dropAfterGo t false (c :: rest) = c :: dropAfterGo t true rest by
        simp [dropAfterGo, hct]]
      rfl
    · have hct' : (c == t) = false := by simpa using hct
      rw [show dropAfterGo t false (c :: rest) = c :: dropAfterGo t false rest by
        simp [dropAfterGo, hct']]
      rfl

theorem dropAfterGo_ne_nil (t : Char) (l : List Char) :
    ∀ b, (∃ c ∈ l, isWSChar c = false) → dropAfterGo t b l ≠ [] := by
  induction l with
  | nil =>
    rintro b ⟨c, hc, _⟩
    exact absurd hc (List.not_mem_nil c)
  | cons c rest ih =>
    rintro b ⟨d, hd, hnd⟩
    by_cases hskip : (b && isWSChar c) = true
    · have hwc : isWSChar c = true := (show _ = true ∧ isWSChar c = true by simpa using hskip).2
      have hdrest : d ∈ rest := by
        rcases List.mem_cons.mp hd with rfl | h'
        · rw [hwc] at hnd
          exact Bool.noConfusion hnd
        · exact h'
      rw [show dropAfterGo t b (c :: rest) = dropAfterGo t true rest by
        simp [dropAfterGo, hskip]]
      exact ih true ⟨d, hdrest, hnd⟩
    · have hskip' : (b && isWSChar c) = false := by simpa using hskip
      by_cases hct : (c == t) = true
      · rw [show dropAfterGo t b (c :: rest) = c :: dropAfterGo t true rest by
          simp [dropAfterGo, hskip', hct]]
        simp
      · have hct' : (c == t) = false := by simpa using hct
        rw [show dropAfterGo t b (c :: rest) = c :: dropAfterGo t false rest by
          simp [dropAfterGo, hskip', hct']]
        simp

theorem dropAfterGo_chain (t : Char) (R : Char → Char → Prop)
    (hR : ∀ d, isWSChar d = false → R t d) (l : List Char) :
    ∀ b, List.Chain' R l → List.Chain' wwOK l →
      List.Chain' R (dropAfterGo t b l) ∧
        (∀ h, (dropAfterGo t b l).head? = some h →
          (l.head? = some h ∨ isWSChar h = false)) := by
  induction l with
  | nil =>
    intro b _ _
    exact ⟨List.chain'_nil, fun h hh => Option.noConfusion hh⟩
  | cons c rest ih =>
    intro b hRl hww
    obtain ⟨hpr, htr⟩ := List.chain'_cons'.mp hRl
    obtain ⟨hpw, htw⟩ := List.chain'_cons'.mp hww
    by_cases hskip : (b && isWSChar c) = true
    · have hwc : isWSChar c = true := (show _ = true ∧ isWSChar c = true by simpa using hskip).2
      have heq : dropAfterGo t b (c :: rest) = dropAfterGo t true rest := by
        simp [dropAfterGo, hskip]
      obtain ⟨r1, r2⟩ := ih true htr htw
      refine ⟨by rw [heq]; exact r1, ?_⟩
      intro h hh
      rw [heq] at hh
      right
      rcases r2 h hh with hcase | hcase
      · cases hwh : isWSChar h
        · rfl
        · exact absurd ⟨hwc, hwh⟩ (hpw h hcase)
      · exact hcase
    · have hskip' : (b && isWSChar c) = false := by simpa using hskip
      by_cases hct : (c == t) = true
      · have hceq : c = t := by simpa using hct
        have heq : dropAfterGo t b (c :: rest) = c :: dropAfterGo t true rest := by
          simp [dropAfterGo, hskip', hct]
        obtain ⟨r1, r2⟩ := ih true htr htw
        constructor
        · rw [heq]
          refine List.chain'_cons'.mpr ⟨?_, r1⟩
          intro y hy
          rcases r2 y hy with hcase | hcase
          · exact hpr y hcase
          · rw [hceq]
            exact hR y hcase
        · intro h hh
          rw [heq] at hh
          left
          rw [show h = c by simpa using hh.symm]
          rfl
      · have hct' : (c == t) = false := by simpa using hct
        have heq : dropAfterGo t b (c :: rest) = c :: dropAfterGo t false rest := by
          simp [dropAfterGo, hskip', hct']
        obtain ⟨r1, _⟩ := ih false htr htw
        constructor
        · rw [heq]
          refine List.chain'_cons'.mpr ⟨?_, r1⟩
          intro y hy
          rw [dropAfterGo_false_head t rest] at hy
          exact hpr y hy
        · intro h hh
          rw [heq] at hh
          left
          rw [show h = c by simpa using hh.symm]
          rfl

theorem dropAfterGo_establish (t : Char) (l : List Char) :
    ∀ b, List.Chain' (twOK t) (dropAfterGo t b l) := by
  induction l with
  | nil => intro b; exact List.chain'_nil
  | cons c rest ih =>
    intro b
    by_cases hskip : (b && isWSChar c) = true
    · rw [show dropAfterGo t b (c :: rest) = dropAfterGo t true rest by
        simp [dropAfterGo, hskip]]
      exact ih true
    · have hskip' : (b && isWSChar c) = false := by simpa using hskip
      by_cases hct : (c == t) = true
      · rw [show dropAfterGo t b (c :: rest) = c :: dropAfterGo t true rest by
          simp [dropAfterGo, hskip', hct]]
        refine List.chain'_cons'.mpr ⟨?_, ih true⟩
        intro y hy hcon
        rw [dropAfterGo_true_headNW t rest y hy] at hcon
        exact Bool.noConfusion hcon.2
      · have hct' : (c == t) = false := by simpa using hct
        rw [show dropAfterGo t b (c :: rest) = c :: dropAfterGo t false rest by
          simp [dropAfterGo, hskip', hct']]
        refine List.chain'_cons'.mpr ⟨?_, ih false⟩
        intro y _ hcon
        have : c = t := hcon.1
        rw [← this] at hct'
        simp at hct'

theorem dropAfterGo_lastNW (t : Char) (l : List Char) (hl : lastNW l) :
    ∀ b, lastNW (dropAfterGo t b l) := by
  induction l with
  | nil => intro b c hc; exact Option.noConfusion hc
  | cons c rest ih =>
    intro b
    cases rest with
    | nil =>
      by_cases hskip : (b && isWSChar c) = true
      · rw [show dropAfterGo t b [c] = dropAfterGo t true [] by simp [dropAfterGo, hskip]]
        intro x hx
        exact Option.noConfusion hx
      · have hskip' : (b && isWSChar c) = false := by simpa using hskip
        have hwc : isWSChar c = false := hl c rfl
        by_cases hct : (c == t) = true
        · rw [show dropAfterGo t b [c] = [c] by simp [dropAfterGo, hskip', hct]]
          intro x hx
          rw [show x = c by simpa using hx.symm]
          exact hwc
        · have hct' : (c == t) = false := by simpa using hct
          rw [show dropAfterGo t b [c] = [c] by simp [dropAfterGo, hskip', hct']]
          intro x hx
          rw [show x = c by simpa using hx.symm]
          exact hwc
    | cons d r =>
      have hlrest : lastNW (d :: r) := by
        intro e he
        apply hl e
        rw [List.getLast?_cons_cons]
        exact he
      have hwit : ∃ e ∈ d :: r, isWSChar e = false := by
        have hne2 : (d :: r).getLast? ≠ none := by cases r <;> simp
        obtain ⟨lc, hlc⟩ := Option.ne_none_iff_exists'.mp hne2
        exact ⟨lc, mem_of_getLast?_eq hlc, hlrest lc hlc⟩
      by_cases hskip : (b && isWSChar c) = true
      · rw [show dropAfterGo t b (c :: d :: r) = dropAfterGo t true (d :: r) by
          simp [dropAfterGo, hskip]]
        exact ih hlrest true
      · have hskip' : (b && isWSChar c) = false := by simpa using hskip
        by_cases hct : (c == t) = true
        · rw [show dropAfterGo t b (c :: d :: r) = c :: dropAfterGo t true (d :: r) by
            simp [dropAfterGo, hskip', hct]]
          intro x hx
          rw [getLast?_cons_of_ne _ _ (dropAfterGo_ne_nil t (d :: r) true hwit)] at hx
          exact ih hlrest true x hx
        · have hct' : (c == t) = false := by simpa using hct
          rw [show dropAfterGo t b (c :: d :: r) = c :: dropAfterGo t false (d :: r) by
            simp [dropAfterGo, hskip', hct']]
          intro x hx
          rw [getLast?_cons_of_ne _ _ (dropAfterGo_ne_nil t (d :: r) false hwit)] at hx
          exact ih hlrest false x hx

theorem removeWhitespace_false_eq (c : List Char) :
    removeWhitespace c false = nsPipeline c := rfl

theorem head?_reverse_eq (l : List Char) : l.reverse.head? = l.getLast? := by
  have := List.getLast?_reverse l.reverse
  rw [List.reverse_reverse] at this
  exact this.symm

theorem ns_fixed (S : List Char) (h1 : allSpace S) (h2 : List.Chain' wwOK S)
    (h3 : List.Chain' wbOK S) (h4 : List.Chain' (twOK ';') S)
    (h5 : List.Chain' (twOK ',') S) (h6 : headNW S) (h7 : lastNW S) :
    removeWhitespace S false = S := by
  by_cases hS : S = []
  · subst hS
    rfl
  · have htrimEnd : trimEndL S = S := by
      unfold trimEndL
      rw [dropWhile_eq_self_of_head isWSChar S.reverse ?hh, List.reverse_reverse]
      case hh =>
        intro c hc
        rw [head?_reverse_eq] at hc
        exact h7 c hc
    have htrim : trimL S = S := by
      unfold trimL trimStartL
      rw [htrimEnd, dropWhile_eq_self_of_head isWSChar S h6]
    have hnl : '\n' ∉ S := no_nl_of_allSpace S h1
    have hM : ((splitNlL S).map trimL).filter (fun line => !line.isEmpty) = [S] := by
      rw [splitNlL_no_nl_single S hnl]
      simp [htrim, hS]
    rw [removeWhitespace_false_eq]
    unfold nsPipeline
    rw [hM]
    show dropAfterGo ',' false (dropAfterGo ';' false (brGo false [] (collapseGo false S))) = S
    rw [(collapseGo_fix S h1 h2).1, brGo_fix S h2 h3, dropAfterGo_fix ';' S h4,
      dropAfterGo_fix ',' S h5]

theorem ns_good (c : List Char) :
    allSpace (nsPipeline c) ∧ List.Chain' wwOK (nsPipeline c) ∧
      List.Chain' wbOK (nsPipeline c) ∧ List.Chain' (twOK ';') (nsPipeline c) ∧
      List.Chain' (twOK ',') (nsPipeline c) ∧ headNW (nsPipeline c) ∧
      lastNW (nsPipeline c) := by
  have hMne : ∀ x ∈ ((splitNlL c).map trimL).filter (fun line => !line.isEmpty), x ≠ [] := by
    intro x hx
    have h := (List.mem_filter.mp hx).2
    intro hxe
    rw [hxe] at h
    simp at h
  have hMh : ∀ x ∈ ((splitNlL c).map trimL).filter (fun line => !line.isEmpty), headNW x := by
    intro x hx
    obtain ⟨x0, _, rfl⟩ := List.mem_map.mp (List.mem_filter.mp hx).1
    exact trimL_headNW x0
  have hMl : ∀ x ∈ ((splitNlL c).map trimL).filter (fun line => !line.isEmpty), lastNW x := by
    intro x hx
    obtain ⟨x0, _, rfl⟩ := List.mem_map.mp (List.mem_filter.mp hx).1
    exact trimL_lastNW x0
  have h0h : headNW (joinSep ' ' (((splitNlL c).map trimL).filter (fun line => !line.isEmpty))) :=
    joinSep_headNW ' ' _ hMne hMh
  have h0l : lastNW (joinSep ' ' (((splitNlL c).map trimL).filter (fun line => !line.isEmpty))) :=
    joinSep_lastNW ' ' _ hMne hMl
  set s0 := joinSep ' ' (((splitNlL c).map trimL).filter (fun line => !line.isEmpty)) with hs0def
  have h1a : allSpace (collapseGo false s0) := collapseGo_allSpace s0 false
  have h1w : List.Chain' wwOK (collapseGo false s0) := collapseGo_wwOK s0 false
  have h1h : headNW (collapseGo false s0) := collapseGo_headNW s0 h0h
  have h1l : lastNW (collapseGo false s0) := collapseGo_lastNW s0 h0l false
  set s1 := collapseGo false s0 with hs1def
  have h2a : allSpace (brGo false [] s1) := by
    intro x hx hwx
    have := brGo_subset s1 [] false x hx
    rw [List.nil_append] at this
    exact h1a x this hwx
  have h2chains := brGo_chain s1 [] false (by rw [List.nil_append]; exact h1w)
    (by simp) (by simp)
  have h2w : List.Chain' wwOK (brGo false [] s1) :=
    List.Chain'.imp (fun a b hab => hab.1) h2chains.1
  have h2b : List.Chain' wbOK (brGo false [] s1) :=
    List.Chain'.imp (fun a b hab => hab.2) h2chains.1
  have h2h : headNW (brGo false [] s1) := brGo_headNW s1 h1h
  have h2l : lastNW (brGo false [] s1) := by
    by_cases hnil : s1 = []
    · rw [hnil]
      intro x hx
      exact Option.noConfusion hx
    · exact (brGo_last s1 [] false hnil h1l).2
  set s2 := brGo false [] s1 with hs2def
  have hRwwS : ∀ d, isWSChar d = false → wwOK ';' d := by
    intro d hd hcon
    rw [hd] at hcon
    exact Bool.noConfusion hcon.2
  have hRwbS : ∀ d, isWSChar d = false → wbOK ';' d := by
    intro d hd
    constructor
    · intro hcon
      rw [show isWSChar ';' = false by decide] at hcon
      exact Bool.noConfusion hcon.1
    · intro hcon
      rw [hd] at hcon
      exact Bool.noConfusion hcon.2
  have h3a : allSpace (dropAfterGo ';' false s2) := by
    intro x hx hwx
    exact h2a x (dropAfterGo_subset ';' s2 false x hx) hwx
  have h3w : List.Chain' wwOK (dropAfterGo ';' false s2) :=
    (dropAfterGo_chain ';' wwOK hRwwS s2 false h2w h2w).1
  have h3b : List.Chain' wbOK (dropAfterGo ';' false s2) :=
    (dropAfterGo_chain ';' wbOK hRwbS s2 false h2b h2w).1
  have h3t : List.Chain' (twOK ';') (dropAfterGo ';' false s2) :=
    dropAfterGo_establish ';' s2 false
  have h3h : headNW (dropAfterGo ';' false s2) := by
    intro x hx
    rw [dropAfterGo_false_head ';' s2] at hx
    exact h2h x hx
  have h3l : lastNW (dropAfterGo ';' false s2) := dropAfterGo_lastNW ';' s2 h2l false
  set s3 := dropAfterGo ';' false s2 with hs3def
  have hRwwC : ∀ d, isWSChar d = false → wwOK ',' d := by
    intro d hd hcon
    rw [hd] at hcon
    exact Bool.noConfusion hcon.2
  have hRwbC : ∀ d, isWSChar d = false → wbOK ',' d := by
    intro d hd
    constructor
    · intro hcon
      rw [show isWSChar ',' = false by decide] at hcon
      exact Bool.noConfusion hcon.1
    · intro hcon
      rw [hd] at hcon
      exact Bool.noConfusion hcon.2
  have hRts : ∀ d, isWSChar d = false → twOK ';' ',' d := by
    intro d _ hcon
    exact absurd hcon.1 (by decide)
  have h4a : allSpace (dropAfterGo ',' false s3) := by
    intro x hx hwx
    exact h3a x (dropAfterGo_subset ',' s3 false x hx) hwx
  have h4w : List.Chain' wwOK (dropAfterGo ',' false s3) :=
    (dropAfterGo_chain ',' wwOK hRwwC s3 false h3w h3w).1
  have h4b : List.Chain' wbOK (dropAfterGo ',' false s3) :=
    (dropAfterGo_chain ',' wbOK hRwbC s3 false h3b h3w).1
  have h4t1 : List.Chain' (twOK ';') (dropAfterGo ',' false s3) :=
    (dropAfterGo_chain ',' (twOK ';') hRts s3 false h3t h3w).1
  have h4t2 : List.Chain' (twOK ',') (dropAfterGo ',' false s3) :=
    dropAfterGo_establish ',' s3 false
  have h4h : headNW (dropAfterGo ',' false s3) := by
    intro x hx
    rw [dropAfterGo_false_head ',' s3] at hx
    exact h3h x hx
  have h4l : lastNW (dropAfterGo ',' false s3) := dropAfterGo_lastNW ',' s3 h3l false
  exact ⟨h4a, h4w, h4b, h4t1, h4t2, h4h, h4l⟩

theorem removeWhitespace_nonsensitive_idem (c : List Char) :
    removeWhitespace (removeWhitespace c false) false = removeWhitespace c false := by
  obtain ⟨h1, h2, h3, h4, h5, h6, h7⟩ := ns_good c
  rw [removeWhitespace_false_eq c]
  exact ns_fixed (nsPipeline c) h1 h2 h3 h4 h5 h6 h7

/-- Claim C7: the Content Normalizer is idempotent for both sensitivity
flags — normalizing already-normalized content with the same flag returns
it unchanged. -/
theorem removeWhitespace_idempotent (content : List Char) (flag : Bool) :
    removeWhitespace (removeWhitespace content flag) flag =
      removeWhitespace content flag := by
  cases flag
  · exact removeWhitespace_nonsensitive_idem content
  · exact removeWhitespace_sensitive_idem content

/-! ### Claim C8: the normalization examples -/

/-- Claim C8: the Content Normalizer produces exactly the spec's example
outputs — the sensitive path (selected for `.py`) right-trims lines and
drops blank lines, keeping line breaks and indentation; the non-sensitive
path (selected for `.js`) trims and joins lines, collapses whitespace and
removes it around brackets and after `;` and `,`. -/
theorem removeWhitespace_examples :
    (WHITESPACE_SENSITIVE_EXTENSIONS.map String.toList).contains ((".py").toList) = true ∧
    removeWhitespace (("def f():\n    return 1\n\n").toList) true =
      ("def f():\n    return 1").toList ∧
    (WHITESPACE_SENSITIVE_EXTENSIONS.map String.toList).contains ((".js").toList) = false ∧
    removeWhitespace (("function f() \x7b\n  return 1;\n\x7d\n").toList) false =
      ("function f()\x7breturn 1;\x7d").toList ∧
    extnameL (("script.py").toList) = ((".py").toList) ∧
    extnameL (("app.js").toList) = ((".js").toList) := by decide

/-- Witness for C10 at a concrete input: the text built from the header
line and one plain line, whose body line is no header. -/
theorem empty_section_zero_patterns_wit :
    (∀ l ∈ [("foo").toList], isHeaderL (trimL l) = false) ∧
    (parseLines ([] ++ [("[]").toList] ++ [("foo").toList]) =
        parseLines ([] ++ [("[]").toList]) ∧
      lookupA (parseLines ([] ++ [("[]").toList])).config [] = some [] ∧
      (lookupA (readConfig (("[]\nfoo").toList)) [] = none ∨
        lookupA (readConfig (("[]\nfoo").toList)) [] = some [])) :=
  ⟨by decide, empty_section_zero_patterns [] [("foo").toList] (("[]\nfoo").toList) (by decide)⟩
